import Mathlib

/-!
Verification development for the ECDH secure-channel script
(`ecdh/script.py`): ECDH key agreement, SHA-256 key derivation,
PEM/SPKI public-key encoding, and AES-CBC encryption with PKCS7
padding and UTF-8 plaintexts.

Bytes are modelled as `List ℕ` with values below 256; strings are
modelled as lists of Unicode scalar values.  The AES block permutation
and the elliptic-curve point codec come from an external library, so
they enter as parameters constrained by the properties that library
guarantees; everything else (CBC chaining, PKCS7, UTF-8, SHA-256,
base64, PEM armor, the handshake and server/client control flow) is
embedded concretely.
-/

/-- A byte list: every element is below 256. -/
def IsBytes (l : List ℕ) : Prop := ∀ x ∈ l, x < 256

instance : DecidablePred IsBytes := fun l =>
  inferInstanceAs (Decidable (∀ x ∈ l, x < 256))

/-- Pointwise XOR of two byte lists (truncates to the shorter). -/
def xorB (a b : List ℕ) : List ℕ := List.zipWith Nat.xor a b

/- ## PKCS7 padding (model of `cryptography.hazmat.primitives.padding.PKCS7`
with a 128-bit block size, as used by `AESCipher`). -/

/-- PKCS7 padding: append `n` copies of `n`, where `n = 16 - len % 16 ∈ [1,16]`. -/
def padPKCS7 (bs : List ℕ) : List ℕ :=
  let n := 16 - bs.length % 16
  bs ++ List.replicate n n

/-- PKCS7 unpadding as the library's unpadder behaves: the data must be a
nonzero multiple of 16 bytes, the last byte `n` must lie in `[1,16]`, and
the last `n` bytes must all equal `n`; otherwise it fails. -/
def unpadPKCS7 (bs : List ℕ) : Option (List ℕ) :=
  if bs.length = 0 ∨ bs.length % 16 ≠ 0 then none
  else
    let n := bs.getLastD 0
    if n = 0 ∨ 16 < n then none
    else if bs.drop (bs.length - n) = List.replicate n n then
      some (bs.take (bs.length - n))
    else none

/- ## CBC mode (model of `modes.CBC`: the chained application of a 16-byte
block permutation, exactly as the `Cipher` encryptor/decryptor applies it).
The recursion is fuel-indexed (fuel = list length always suffices, since
every step consumes 16 > 0 bytes) so that the definitions compute by
kernel reduction. -/

/-- Fuel-indexed CBC encryption of a block-aligned plaintext: each
ciphertext block is `E (prev XOR ptBlock)` where `prev` starts as the IV
and is thereafter the previous ciphertext block. -/
def cbcEncryptF (E : List ℕ → List ℕ) : ℕ → List ℕ → List ℕ → List ℕ
  | _, _, [] => []
  | 0, _, _ :: _ => []
  | fuel + 1, prev, b :: bs =>
    let c := E (xorB prev ((b :: bs).take 16))
    c ++ cbcEncryptF E fuel c ((b :: bs).drop 16)

/-- CBC encryption (`encryptor.update(padded_data) + encryptor.finalize()`). -/
def cbcEncrypt (E : List ℕ → List ℕ) (prev pt : List ℕ) : List ℕ :=
  cbcEncryptF E pt.length prev pt

/-- Fuel-indexed CBC decryption: each plaintext block is `prev XOR D ctBlock`. -/
def cbcDecryptF (D : List ℕ → List ℕ) : ℕ → List ℕ → List ℕ → List ℕ
  | _, _, [] => []
  | 0, _, _ :: _ => []
  | fuel + 1, prev, b :: bs =>
    let c := (b :: bs).take 16
    xorB prev (D c) ++ cbcDecryptF D fuel c ((b :: bs).drop 16)

/-- CBC decryption (`decryptor.update(ct) + decryptor.finalize()`). -/
def cbcDecrypt (D : List ℕ → List ℕ) (prev ct : List ℕ) : List ℕ :=
  cbcDecryptF D ct.length prev ct

/-- A key gives a valid 16-byte block permutation pair: `D` inverts `E` on
16-byte blocks and `E` preserves the block length (what the AES library
guarantees for a valid AES key). -/
def ValidBlockCipher (Ek Dk : List ℕ → List ℕ) : Prop :=
  ∀ b : List ℕ, b.length = 16 → Dk (Ek b) = b ∧ (Ek b).length = 16

/- ## UTF-8 (model of Python's `str.encode()` / `bytes.decode()` with the
default strict `utf-8` codec).  A Python `str` is modelled as a list of
Unicode scalar values. -/

/-- A well-formed text: every code point is a Unicode scalar value
(below `0x110000` and not a surrogate). -/
def WFText (s : List ℕ) : Prop :=
  ∀ c ∈ s, c < 0x110000 ∧ ¬(0xD800 ≤ c ∧ c < 0xE000)

instance : DecidablePred WFText := fun s =>
  inferInstanceAs (Decidable (∀ c ∈ s, _ ∧ _))

/-- UTF-8 encoding of one Unicode scalar value. -/
def utf8EncodeChar (c : ℕ) : List ℕ :=
  if c < 0x80 then [c]
  else if c < 0x800 then [0xC0 + c / 64, 0x80 + c % 64]
  else if c < 0x10000 then
    [0xE0 + c / 4096, 0x80 + c / 64 % 64, 0x80 + c % 64]
  else
    [0xF0 + c / 262144, 0x80 + c / 4096 % 64, 0x80 + c / 64 % 64, 0x80 + c % 64]

/-- UTF-8 encoding of a text (`str.encode()`). -/
def utf8Encode (s : List ℕ) : List ℕ := s.flatMap utf8EncodeChar

/-- A UTF-8 continuation byte. -/
def isCont (b : ℕ) : Prop := 0x80 ≤ b ∧ b < 0xC0

instance (b : ℕ) : Decidable (isCont b) := by
  unfold isCont
  infer_instance

/-- Strict UTF-8 decoding of one scalar value from the front of a byte list,
returning the value and the remaining bytes.  Rejects bad leading bytes, bad
continuation bytes, truncated sequences, overlong forms, surrogates and
values above `0x10FFFF`, exactly as Python's strict codec does. -/
def utf8DecodeOne (l : List ℕ) : Option (ℕ × List ℕ) :=
  match l with
  | [] => none
  | b0 :: t =>
    if b0 < 0x80 then some (b0, t)
    else if b0 < 0xC0 then none
    else if b0 < 0xE0 then
      if t.length < 1 then none
      else
        let b1 := t.getD 0 0
        if isCont b1 then
          let c := (b0 - 0xC0) * 64 + (b1 - 0x80)
          if 0x80 ≤ c then some (c, t.drop 1) else none
        else none
    else if b0 < 0xF0 then
      if t.length < 2 then none
      else
        let b1 := t.getD 0 0
        let b2 := t.getD 1 0
        if isCont b1 ∧ isCont b2 then
          let c := (b0 - 0xE0) * 4096 + (b1 - 0x80) * 64 + (b2 - 0x80)
          if 0x800 ≤ c ∧ ¬(0xD800 ≤ c ∧ c < 0xE000) then some (c, t.drop 2)
          else none
        else none
    else if b0 < 0xF8 then
      if t.length < 3 then none
      else
        let b1 := t.getD 0 0
        let b2 := t.getD 1 0
        let b3 := t.getD 2 0
        if isCont b1 ∧ isCont b2 ∧ isCont b3 then
          let c := (b0 - 0xF0) * 262144 + (b1 - 0x80) * 4096 +
                   (b2 - 0x80) * 64 + (b3 - 0x80)
          if 0x10000 ≤ c ∧ c < 0x110000 then some (c, t.drop 3)
          else none
        else none
    else none

/-- Fuel-indexed strict UTF-8 decoding of a whole byte list. -/
def utf8DecodeF : ℕ → List ℕ → Option (List ℕ)
  | _, [] => some []
  | 0, _ :: _ => none
  | fuel + 1, b0 :: t =>
    match utf8DecodeOne (b0 :: t) with
    | some (c, rest) => (utf8DecodeF fuel rest).map (fun cs => c :: cs)
    | none => none

/-- Strict UTF-8 decoding (`bytes.decode()`): the fuel `l.length` always
suffices because each decoded scalar value consumes at least one byte. -/
def utf8Decode (l : List ℕ) : Option (List ℕ) := utf8DecodeF l.length l

/- ## AESCipher (model of the `AESCipher` class: CBC over a 16-byte block
permutation, PKCS7 padding, UTF-8 plaintext interface, `IV || ciphertext`
message layout).  The AES block permutation itself is the external
library's; it enters as a parameter `E`/`D` indexed by the key. -/

/-- The distinct failure modes of `AESCipher.decrypt`, in the order the
Python code can raise them: `modes.CBC(iv)` rejects an IV that is not 16
bytes; `decryptor.finalize()` rejects ciphertext that is not a multiple of
the block size; the PKCS7 unpadder rejects structurally invalid padding;
`bytes.decode()` rejects non-UTF-8 plaintext bytes. -/
inductive DecryptError where
  | ivSize : DecryptError
  | blockLength : DecryptError
  | paddingError : DecryptError
  | unicodeError : DecryptError

deriving DecidableEq

/-- `AESCipher.encrypt`: UTF-8-encode the plaintext string, PKCS7-pad it,
CBC-encrypt it under `key` with the freshly drawn 16-byte IV, and return
`IV || ciphertext`.  The IV drawn by `os.urandom(16)` is passed in as the
`iv` argument. -/
def AESCipher.encrypt (E : List ℕ → List ℕ → List ℕ) (key iv s : List ℕ) :
    List ℕ :=
  iv ++ cbcEncrypt (E key) iv (padPKCS7 (utf8Encode s))

/-- `AESCipher.decrypt`: split off the first 16 bytes as IV, CBC-decrypt
the remainder under `key`, remove the PKCS7 padding, and UTF-8-decode the
result. -/
def AESCipher.decrypt (D : List ℕ → List ℕ → List ℕ) (key ct : List ℕ) :
    Except DecryptError (List ℕ) :=
  if ct.length < 16 then .error .ivSize
  else if (ct.drop 16).length % 16 ≠ 0 then .error .blockLength
  else
    match unpadPKCS7 (cbcDecrypt (D key) (ct.take 16) (ct.drop 16)) with
    | none => .error .paddingError
    | some p =>
      match utf8Decode p with
      | none => .error .unicodeError
      | some s => .ok s

/- ## SHA-256 (model of `hashlib.sha256(...).digest()`, FIPS 180-4),
used by `compute_shared_secret` to derive the 32-byte symmetric key. -/

/-- Fuel-indexed chunking; fuel = list length suffices for `n > 0`. -/
def chunksOfF (n : ℕ) : ℕ → List ℕ → List (List ℕ)
  | _, [] => []
  | 0, _ :: _ => []
  | fuel + 1, x :: xs => (x :: xs).take n :: chunksOfF n fuel ((x :: xs).drop n)

/-- Split a list into chunks of `n` elements (`n > 0`). -/
def chunksOf (n : ℕ) (l : List ℕ) : List (List ℕ) := chunksOfF n l.length l

/-- Big-endian bytes of a 32-bit word. -/
def w2b (w : ℕ) : List ℕ :=
  [w / 16777216 % 256, w / 65536 % 256, w / 256 % 256, w % 256]

/-- Big-endian bytes of a 64-bit length field. -/
def w2b8 (n : ℕ) : List ℕ :=
  [n / 72057594037927936 % 256, n / 281474976710656 % 256,
   n / 1099511627776 % 256, n / 4294967296 % 256,
   n / 16777216 % 256, n / 65536 % 256, n / 256 % 256, n % 256]

/-- A big-endian 32-bit word from four bytes. -/
def b2w (l : List ℕ) : ℕ := l.foldl (fun acc b => acc * 256 + b) 0

/-- Right rotation within 32 bits. -/
def rotr32 (n w : ℕ) : ℕ := ((w >>> n) + (w <<< (32 - n))) % 4294967296

def shaCh (x y z : ℕ) : ℕ := (x &&& y) ^^^ ((x ^^^ 4294967295) &&& z)

def shaMaj (x y z : ℕ) : ℕ := (x &&& y) ^^^ (x &&& z) ^^^ (y &&& z)

def sigBig0 (x : ℕ) : ℕ := rotr32 2 x ^^^ rotr32 13 x ^^^ rotr32 22 x

def sigBig1 (x : ℕ) : ℕ := rotr32 6 x ^^^ rotr32 11 x ^^^ rotr32 25 x

def sigSmall0 (x : ℕ) : ℕ := rotr32 7 x ^^^ rotr32 18 x ^^^ (x >>> 3)

def sigSmall1 (x : ℕ) : ℕ := rotr32 17 x ^^^ rotr32 19 x ^^^ (x >>> 10)

/-- The SHA-256 round constants. -/
def shaK : List ℕ :=
  [1116352408, 1899447441, 3049323471, 3921009573, 961987163, 1508970993,
   2453635748, 2870763221, 3624381080, 310598401, 607225278, 1426881987,
   1925078388, 2162078206, 2614888103, 3248222580, 3835390401, 4022224774,
   264347078, 604807628, 770255983, 1249150122, 1555081692, 1996064986,
   2554220882, 2821834349, 2952996808, 3210313671, 3336571891, 3584528711,
   113926993, 338241895, 666307205, 773529912, 1294757372, 1396182291,
   1695183700, 1986661051, 2177026350, 2456956037, 2730485921, 2820302411,
   3259730800, 3345764771, 3516065817, 3600352804, 4094571909, 275423344,
   430227734, 506948616, 659060556, 883997877, 958139571, 1322822218,
   1537002063, 1747873779, 1955562222, 2024104815, 2227730452, 2361852424,
   2428436474, 2756734187, 3204031479, 3329325298]

/-- The SHA-256 working state: eight 32-bit words. -/
structure SHAState where
  a : ℕ
  b : ℕ
  c : ℕ
  d : ℕ
  e : ℕ
  f : ℕ
  g : ℕ
  h : ℕ

/-- The SHA-256 initial hash value. -/
def shaH0 : SHAState :=
  ⟨1779033703, 3144134277, 1013904242, 2773480762,
   1359893119, 2600822924, 528734635, 1541459225⟩

/-- Extend a message schedule by one word. -/
def extendW (w : List ℕ) : List ℕ :=
  w ++ [(sigSmall1 (w.getD (w.length - 2) 0) + w.getD (w.length - 7) 0 +
         sigSmall0 (w.getD (w.length - 15) 0) + w.getD (w.length - 16) 0)
        % 4294967296]

/-- The full 64-word message schedule from a 16-word block. -/
def schedule (w16 : List ℕ) : List ℕ := extendW^[48] w16

/-- One SHA-256 compression round. -/
def shaRound (st : SHAState) (kw : ℕ × ℕ) : SHAState :=
  let t1 := (st.h + sigBig1 st.e + shaCh st.e st.f st.g + kw.1 + kw.2)
            % 4294967296
  let t2 := (sigBig0 st.a + shaMaj st.a st.b st.c) % 4294967296
  ⟨(t1 + t2) % 4294967296, st.a, st.b, st.c,
   (st.d + t1) % 4294967296, st.e, st.f, st.g⟩

/-- Process one 64-byte block. -/
def processBlock (st : SHAState) (block : List ℕ) : SHAState :=
  let w := schedule ((chunksOf 4 block).map b2w)
  let r := (shaK.zip w).foldl shaRound st
  ⟨(st.a + r.a) % 4294967296, (st.b + r.b) % 4294967296,
   (st.c + r.c) % 4294967296, (st.d + r.d) % 4294967296,
   (st.e + r.e) % 4294967296, (st.f + r.f) % 4294967296,
   (st.g + r.g) % 4294967296, (st.h + r.h) % 4294967296⟩

/-- SHA-256 message padding: `0x80`, zeros to 56 mod 64, then the 64-bit
big-endian bit length. -/
def shaPad (msg : List ℕ) : List ℕ :=
  msg ++ [0x80] ++ List.replicate ((64 - (msg.length + 9) % 64) % 64) 0
      ++ w2b8 (8 * msg.length)

/-- `hashlib.sha256(msg).digest()`: the 32-byte SHA-256 digest. -/
def sha256 (msg : List ℕ) : List ℕ :=
  let st := (chunksOf 64 (shaPad msg)).foldl processBlock shaH0
  w2b st.a ++ w2b st.b ++ w2b st.c ++ w2b st.d ++
  w2b st.e ++ w2b st.f ++ w2b st.g ++ w2b st.h

/- ## Base64 and PEM armor (model of the `SubjectPublicKeyInfo`/PEM
encoding produced by `public_bytes(Encoding.PEM, ...)` and consumed by
`load_pem_public_key`).  The model is canonical: the armor lines are
fixed and the base64 body is unwrapped (the real encoder folds it at 64
characters; that layout detail is abstracted away). -/

/-- Base64 alphabet: sixlet value to ASCII character. -/
def b64ch (s : ℕ) : ℕ :=
  if s < 26 then s + 65
  else if s < 52 then s + 71
  else if s < 62 then s - 4
  else if s = 62 then 43
  else 47

/-- Base64 alphabet inverse: ASCII character to sixlet value. -/
def b64dch (c : ℕ) : Option ℕ :=
  if 65 ≤ c ∧ c ≤ 90 then some (c - 65)
  else if 97 ≤ c ∧ c ≤ 122 then some (c - 71)
  else if 48 ≤ c ∧ c ≤ 57 then some (c + 4)
  else if c = 43 then some 62
  else if c = 47 then some 63
  else none

/-- Base64 encoding (RFC 4648, with `=` padding). -/
def b64encode : List ℕ → List ℕ
  | a :: b :: c :: rest =>
    b64ch (a / 4) :: b64ch (a % 4 * 16 + b / 16) ::
    b64ch (b % 16 * 4 + c / 64) :: b64ch (c % 64) :: b64encode rest
  | [a, b] => [b64ch (a / 4), b64ch (a % 4 * 16 + b / 16), b64ch (b % 16 * 4), 61]
  | [a] => [b64ch (a / 4), b64ch (a % 4 * 16), 61, 61]
  | [] => []

/-- Strict base64 decoding: accepts exactly the canonical encoding
(4-character groups, `=` padding only at the end, zero spare bits). -/
def b64decode : List ℕ → Option (List ℕ)
  | [] => some []
  | c0 :: c1 :: c2 :: c3 :: rest =>
    if c2 = 61 then
      if c3 = 61 ∧ rest = [] then
        match b64dch c0, b64dch c1 with
        | some s0, some s1 =>
          if s1 % 16 = 0 then some [s0 * 4 + s1 / 16] else none
        | _, _ => none
      else none
    else if c3 = 61 then
      if rest = [] then
        match b64dch c0, b64dch c1, b64dch c2 with
        | some s0, some s1, some s2 =>
          if s2 % 4 = 0 then some [s0 * 4 + s1 / 16, s1 % 16 * 16 + s2 / 4]
          else none
        | _, _, _ => none
      else none
    else
      match b64dch c0, b64dch c1, b64dch c2, b64dch c3 with
      | some s0, some s1, some s2, some s3 =>
        (b64decode rest).map (fun bs =>
          (s0 * 4 + s1 / 16) :: (s1 % 16 * 16 + s2 / 4) ::
          (s2 % 4 * 64 + s3) :: bs)
      | _, _, _, _ => none
  | _ => none

/-- The PEM armor opening line `-----BEGIN PUBLIC KEY-----\n` as ASCII. -/
def pemHeader : List ℕ :=
  [45, 45, 45, 45, 45, 66, 69, 71, 73, 78, 32, 80, 85, 66, 76, 73, 67, 32,
   75, 69, 89, 45, 45, 45, 45, 45, 10]

/-- The PEM armor closing line `\n-----END PUBLIC KEY-----\n` as ASCII. -/
def pemFooterB : List ℕ :=
  [10, 45, 45, 45, 45, 45, 69, 78, 68, 32, 80, 85, 66, 76, 73, 67, 32, 75,
   69, 89, 45, 45, 45, 45, 45, 10]

/-- PEM encoding of a DER payload: armor lines around the base64 body. -/
def pemEncode (der : List ℕ) : List ℕ :=
  pemHeader ++ b64encode der ++ pemFooterB

/-- PEM decoding: strip the exact armor lines and base64-decode the body. -/
def pemDecode (s : List ℕ) : Option (List ℕ) :=
  if 53 ≤ s.length ∧ s.take 27 = pemHeader ∧
     s.drop (s.length - 26) = pemFooterB then
    b64decode ((s.drop 27).take (s.length - 53))
  else none

/-- The DER `SubjectPublicKeyInfo` header for an uncompressed P-256 EC
public key (sequence, algorithm identifiers `id-ecPublicKey` and
`prime256v1`, and the BIT STRING tag), as produced for
`PublicFormat.SubjectPublicKeyInfo`. -/
def spkiHeader : List ℕ :=
  [48, 89, 48, 19, 6, 7, 42, 134, 72, 206, 61, 2, 1, 6, 8, 42, 134, 72,
   206, 61, 3, 1, 7, 3, 66, 0]

/-- A valid curve-point codec, as the elliptic-curve library guarantees:
serialising a point and parsing it back round-trips, a successful parse
pins the input down to that serialisation (the encoding is canonical and
parsing rejects everything else, including off-curve data), and point
serialisations are bytes. -/
def ValidPointCodec {G : Type} (pointBytes : G → List ℕ)
    (bytesToPoint : List ℕ → Option G) : Prop :=
  (∀ P, bytesToPoint (pointBytes P) = some P) ∧
  (∀ b P, bytesToPoint b = some P → b = pointBytes P) ∧
  (∀ P, IsBytes (pointBytes P))

/-- `get_public_bytes`: the PEM/SubjectPublicKeyInfo serialisation of a
public key, `public_bytes(Encoding.PEM, PublicFormat.SubjectPublicKeyInfo)`. -/
def encodePublicKey {G : Type} (pointBytes : G → List ℕ) (P : G) : List ℕ :=
  pemEncode (spkiHeader ++ pointBytes P)

/-- `load_pem_public_key`: parse PEM armor, base64, the
`SubjectPublicKeyInfo` structure and the curve point; any failure —
truncated or corrupted armor, invalid base64, wrong DER structure, bad
point data — yields `none` (the library raises `ValueError`). -/
def parsePublicKey {G : Type} (bytesToPoint : List ℕ → Option G)
    (s : List ℕ) : Option G :=
  match pemDecode s with
  | none => none
  | some der =>
    if der.take 26 = spkiHeader then bytesToPoint (der.drop 26) else none

/- ## ECDH key exchange (model of the `ECDHKeyExchange` class).  The
elliptic-curve group of `SECP256R1` enters as an abstract additive
commutative monoid `G` with the base point `g`; the private key is the
scalar drawn by the library's secure generator, the public key is
`scalar • g`, and `private_key.exchange(ECDH(), peer)` yields the byte
serialisation (the x-coordinate) of `scalar • peer`, modelled by the
abstract `secretBytes`. -/

/-- Handshake failure: `load_pem_public_key` raised on malformed peer
public-key bytes. -/
inductive KexError where
  | decodeError : KexError

deriving DecidableEq

/-- The state of an `ECDHKeyExchange` object: the private scalar fixed at
construction and the `shared_key` attribute (`None` until a successful
`compute_shared_secret`). -/
structure ECDHState where
  privateScalar : ℕ
  sharedKey : Option (List ℕ)

deriving DecidableEq

/-- `ECDHKeyExchange.__init__`: draw the private scalar, no shared key yet. -/
def ECDHKeyExchange.init (randScalar : ℕ) : ECDHState := ⟨randScalar, none⟩

/-- The public key carried inside the private key object. -/
def ECDHKeyExchange.publicKey {G : Type} [AddCommMonoid G] (g : G)
    (st : ECDHState) : G :=
  st.privateScalar • g

/-- `get_public_bytes`: serialise the public key to PEM. -/
def getPublicBytes {G : Type} [AddCommMonoid G] (g : G)
    (pointBytes : G → List ℕ) (st : ECDHState) : List ℕ :=
  encodePublicKey pointBytes (ECDHKeyExchange.publicKey g st)

/-- `compute_shared_secret`: deserialise the peer's public key (raising
`DecodeError` — the library's `ValueError` — on malformed bytes, in which
case the object's state is untouched), perform the ECDH exchange, hash
the shared secret with SHA-256, store it in `shared_key` and return it. -/
def computeSharedSecret {G : Type} [AddCommMonoid G]
    (secretBytes : G → List ℕ) (bytesToPoint : List ℕ → Option G)
    (st : ECDHState) (peerBytes : List ℕ) :
    Except KexError (List ℕ) × ECDHState :=
  match parsePublicKey bytesToPoint peerBytes with
  | none => (.error .decodeError, st)
  | some peer =>
    let sharedSecret := secretBytes (st.privateScalar • peer)
    let key := sha256 sharedSecret
    (.ok key, { st with sharedKey := some key })

/- ## Handshake and traffic control flow (models of `run_server` and
`run_client`).  The transport is modelled by explicit per-connection
inputs: what the peer sent, and the IV the encrypting side drew. -/

/-- What the server receives and draws in one accepted connection. -/
structure ConnInput where
  peerPub : List ℕ
  encMsg : List ℕ
  respIv : List ℕ

deriving DecidableEq

/-- A failure inside one connection: handshake decode failure or message
decryption failure.  Both propagate out of `run_server`'s `try/finally`
(which has no `except` clause) and abort the accept loop. -/
inductive ConnError where
  | decodeError : ConnError
  | decryptError : DecryptError → ConnError

deriving DecidableEq

/-- What the server did in one successful connection. -/
structure ConnTrace where
  scalarUsed : ℕ
  sentPub : List ℕ
  derivedKey : List ℕ
  decryptedMsg : List ℕ
  sentResponse : List ℕ

deriving DecidableEq

/-- The server's fixed response string. -/
def serverResponse : List ℕ :=
  [72, 101, 108, 108, 111, 32, 116, 104, 105, 115, 32, 105, 115, 32, 116,
   104, 101, 32, 83, 101, 114, 118, 101, 114, 32, 33, 32, 89, 111, 117,
   114, 32, 109, 101, 115, 115, 97, 103, 101, 32, 119, 97, 115, 32, 114,
   101, 99, 101, 105, 118, 101, 100, 32, 115, 101, 99, 117, 114, 101,
   108, 121, 46]

/-- The client's fixed message string. -/
def clientMessage : List ℕ :=
  [72, 101, 108, 108, 111, 32, 33, 32, 73, 32, 97, 109, 32, 116, 104,
   101, 32, 67, 108, 105, 101, 110, 116, 32, 33, 32, 84, 104, 105, 115,
   32, 109, 101, 115, 115, 97, 103, 101, 32, 105, 115, 32, 101, 110, 99,
   114, 121, 112, 116, 101, 100, 46]

/-- The body of `run_server`'s accept loop for one connection: send the
public key, receive the peer's, compute the shared secret (mutating the
shared `ecdh` object), then decrypt the client message and send the
encrypted response. -/
def handleConn {G : Type} [AddCommMonoid G]
    (E D : List ℕ → List ℕ → List ℕ) (g : G)
    (pointBytes : G → List ℕ) (bytesToPoint : List ℕ → Option G)
    (secretBytes : G → List ℕ)
    (st : ECDHState) (ci : ConnInput) :
    Except ConnError (ConnTrace × ECDHState) :=
  let sentPub := getPublicBytes g pointBytes st
  match computeSharedSecret secretBytes bytesToPoint st ci.peerPub with
  | (.error _, _) => .error .decodeError
  | (.ok key, st1) =>
    match AESCipher.decrypt D key ci.encMsg with
    | .error e => .error (.decryptError e)
    | .ok msg =>
      .ok ({ scalarUsed := st.privateScalar, sentPub := sentPub,
             derivedKey := key, decryptedMsg := msg,
             sentResponse := AESCipher.encrypt E key ci.respIv serverResponse },
           st1)

/-- `run_server`'s accept loop: the single `ecdh` object (created before
the loop) is threaded through every connection; an exception aborts the
loop. -/
def runServerConns {G : Type} [AddCommMonoid G]
    (E D : List ℕ → List ℕ → List ℕ) (g : G)
    (pointBytes : G → List ℕ) (bytesToPoint : List ℕ → Option G)
    (secretBytes : G → List ℕ) :
    ECDHState → List ConnInput → List (Except ConnError ConnTrace)
  | _, [] => []
  | st, ci :: rest =>
    match handleConn E D g pointBytes bytesToPoint secretBytes st ci with
    | .ok (tr, st1) =>
      .ok tr :: runServerConns E D g pointBytes bytesToPoint secretBytes st1 rest
    | .error e => [.error e]

/-- `run_server`: create the ECDH object once, then serve connections. -/
def runServer {G : Type} [AddCommMonoid G]
    (E D : List ℕ → List ℕ → List ℕ) (g : G)
    (pointBytes : G → List ℕ) (bytesToPoint : List ℕ → Option G)
    (secretBytes : G → List ℕ)
    (randScalar : ℕ) (conns : List ConnInput) :
    List (Except ConnError ConnTrace) :=
  runServerConns E D g pointBytes bytesToPoint secretBytes
    (ECDHKeyExchange.init randScalar) conns

/-- What the client did in one successful run. -/
structure ClientTrace where
  scalarUsed : ℕ
  sentPub : List ℕ
  derivedKey : List ℕ
  sentMsg : List ℕ
  decryptedResponse : List ℕ

deriving DecidableEq

/-- `run_client`: create a fresh ECDH object, receive the server's public
key, send one's own, compute the shared secret, send the encrypted
message and decrypt the response. -/
def runClient {G : Type} [AddCommMonoid G]
    (E D : List ℕ → List ℕ → List ℕ) (g : G)
    (pointBytes : G → List ℕ) (bytesToPoint : List ℕ → Option G)
    (secretBytes : G → List ℕ)
    (randScalar : ℕ) (serverPub : List ℕ) (msgIv : List ℕ)
    (respCt : List ℕ) : Except ConnError ClientTrace :=
  let st := ECDHKeyExchange.init randScalar
  let sentPub := getPublicBytes g pointBytes st
  match computeSharedSecret secretBytes bytesToPoint st serverPub with
  | (.error _, _) => .error .decodeError
  | (.ok key, _) =>
    let sentMsg := AESCipher.encrypt E key msgIv clientMessage
    match AESCipher.decrypt D key respCt with
    | .error e => .error (.decryptError e)
    | .ok resp =>
      .ok { scalarUsed := st.privateScalar, sentPub := sentPub,
            derivedKey := key, sentMsg := sentMsg,
            decryptedResponse := resp }

/- ## Concrete instantiation used by witnesses.  The identity block
permutation is a (degenerate but valid) instance of the block-cipher
interface, and `ZMod 101` with generator `1` is a concrete additive
commutative group instance of the curve-group interface, with a one-byte
point serialisation. -/

/-- A degenerate block cipher: the identity permutation on blocks. -/
def idCipher : List ℕ → List ℕ → List ℕ := fun _ b => b

/-- Demo point serialisation on `ZMod 101`: the canonical representative. -/
def demoPointBytes : ZMod 101 → List ℕ := fun P => [P.val]

/-- Demo point parsing on `ZMod 101`. -/
def demoBytesToPoint : List ℕ → Option (ZMod 101) := fun l =>
  match l with
  | [b] => if b < 101 then some (b : ZMod 101) else none
  | _ => none

/-- Demo shared-secret serialisation on `ZMod 101`. -/
def demoSecretBytes : ZMod 101 → List ℕ := fun P => [P.val]

deriving instance DecidableEq for Except

/-- A demo client connection: a well-formed public key for scalar `c`, a
validly padded one-block message decrypting to `"A"`, and a zero response
IV. -/
def demoConn (c : ℕ) : ConnInput :=
  ⟨encodePublicKey demoPointBytes (c • (1 : ZMod 101)),
   List.replicate 16 0 ++ (65 :: List.replicate 15 15),
   List.replicate 16 0⟩

/-- A demo two-connection server run with the identity block cipher over
the `ZMod 101` demo group, server scalar 7, peers with scalars 3 and 5. -/
def demoServerRun : List (Except ConnError ConnTrace) :=
  runServer idCipher idCipher (1 : ZMod 101) demoPointBytes demoBytesToPoint
    demoSecretBytes 7 [demoConn 3, demoConn 5]

/-- The private scalar a served connection's shared secret was computed
from, if the connection succeeded. -/
def extractScalarUsed : Except ConnError ConnTrace → Option ℕ
  | .ok tr => some tr.scalarUsed
  | .error _ => none

/-- The trace of `demoServerRun`'s first connection. -/
def demoTrace : ConnTrace :=
  ⟨7, getPublicBytes (1 : ZMod 101) demoPointBytes (ECDHKeyExchange.init 7),
   sha256 [21], [65],
   AESCipher.encrypt idCipher (sha256 [21]) (List.replicate 16 0)
     serverResponse⟩

/-- The trace of a demo client run with scalar 9 against the server
public key of scalar 3. -/
def demoClientTrace : ClientTrace :=
  ⟨9, getPublicBytes (1 : ZMod 101) demoPointBytes (ECDHKeyExchange.init 9),
   sha256 [27],
   AESCipher.encrypt idCipher (sha256 [27]) (List.replicate 16 0)
     clientMessage, [65]⟩

theorem xorB_length (a b : List ℕ) : (xorB a b).length = min a.length b.length := by
  simp [xorB]

theorem xorB_cancel : ∀ (a b : List ℕ), a.length = b.length →
    xorB a (xorB a b) = b := by
  intro a
  induction a with
  | nil => intro b h; cases b with
    | nil => rfl
    | cons x xs => simp at h
  | cons x xs ih =>
    intro b h
    cases b with
    | nil => simp at h
    | cons y ys =>
      simp only [List.length_cons] at h
      simp only [xorB, List.zipWith_cons_cons]
      show x.xor (x.xor y) :: xorB xs (xorB xs ys) = y :: ys
      rw [ih ys (by omega)]
      congr 1
      exact Nat.xor_cancel_left x y

theorem padPKCS7_length (bs : List ℕ) :
    (padPKCS7 bs).length = bs.length + (16 - bs.length % 16) := by
  simp [padPKCS7]

theorem padPKCS7_length_mod (bs : List ℕ) : (padPKCS7 bs).length % 16 = 0 := by
  rw [padPKCS7_length]
  omega

theorem padPKCS7_length_pos (bs : List ℕ) : 0 < (padPKCS7 bs).length := by
  rw [padPKCS7_length]
  omega

theorem unpad_pad (bs : List ℕ) : unpadPKCS7 (padPKCS7 bs) = some bs := by
  have hn1 : 1 ≤ 16 - bs.length % 16 := by omega
  have hn2 : 16 - bs.length % 16 ≤ 16 := by omega
  have hlen := padPKCS7_length bs
  have hmod := padPKCS7_length_mod bs
  have hpos := padPKCS7_length_pos bs
  unfold unpadPKCS7
  rw [if_neg (by omega)]
  have hlast : (padPKCS7 bs).getLastD 0 = 16 - bs.length % 16 := by
    unfold padPKCS7
    rw [List.getLastD_eq_getLast?, List.getLast?_append_of_ne_nil]
    · rw [List.getLast?_replicate]
      simp only [Option.getD]
      rw [if_neg (by omega)]
    · intro hc
      have := List.length_replicate (16 - bs.length % 16) (16 - bs.length % 16)
      rw [hc] at this
      simp at this
      omega
  rw [hlast]
  rw [if_neg (by omega)]
  have hsub : (padPKCS7 bs).length - (16 - bs.length % 16) = bs.length := by omega
  rw [hsub]
  have hdrop : (padPKCS7 bs).drop bs.length
      = List.replicate (16 - bs.length % 16) (16 - bs.length % 16) := by
    unfold padPKCS7
    simp [List.drop_left bs]
  have htake : (padPKCS7 bs).take bs.length = bs := by
    unfold padPKCS7
    simp [List.take_left bs]
  rw [hdrop, if_pos rfl, htake]

theorem cbcEncrypt_nil (Ek : List ℕ → List ℕ) (prev : List ℕ) :
    cbcEncrypt Ek prev [] = [] := rfl

theorem cbcDecrypt_nil (Dk : List ℕ → List ℕ) (prev : List ℕ) :
    cbcDecrypt Dk prev [] = [] := rfl

theorem cbcEncryptF_length (Ek Dk : List ℕ → List ℕ)
    (hED : ValidBlockCipher Ek Dk) :
    ∀ (fuel : ℕ) (pt prev : List ℕ), pt.length ≤ fuel →
      pt.length % 16 = 0 → prev.length = 16 →
      (cbcEncryptF Ek fuel prev pt).length = pt.length := by
  intro fuel
  induction fuel with
  | zero =>
    intro pt prev hle _ _
    have : pt = [] := List.eq_nil_of_length_eq_zero (by omega)
    subst this
    rfl
  | succ n ih =>
    intro pt prev hle hmod hprev
    match pt with
    | [] => rfl
    | b :: bs =>
      have hlen : 16 ≤ (b :: bs).length := by
        simp only [List.length_cons]
        simp only [List.length_cons] at hmod
        omega
      have hblk : ((b :: bs).take 16).length = 16 := by
        rw [List.length_take]
        omega
      have hx : (xorB prev ((b :: bs).take 16)).length = 16 := by
        rw [xorB_length, hprev, hblk]
        omega
      obtain ⟨_, hE⟩ := hED (xorB prev ((b :: bs).take 16)) hx
      show (Ek (xorB prev ((b :: bs).take 16)) ++
        cbcEncryptF Ek n (Ek (xorB prev ((b :: bs).take 16)))
          ((b :: bs).drop 16)).length = (b :: bs).length
      rw [List.length_append, hE]
      rw [ih ((b :: bs).drop 16) (Ek (xorB prev ((b :: bs).take 16)))
        (by rw [List.length_drop]; omega)
        (by rw [List.length_drop]; omega) hE]
      rw [List.length_drop]
      omega

theorem cbcEncrypt_length (Ek Dk : List ℕ → List ℕ)
    (hED : ValidBlockCipher Ek Dk) (pt prev : List ℕ)
    (hmod : pt.length % 16 = 0) (hprev : prev.length = 16) :
    (cbcEncrypt Ek prev pt).length = pt.length :=
  cbcEncryptF_length Ek Dk hED pt.length pt prev le_rfl hmod hprev

theorem cbcDecryptF_cons (Dk : List ℕ → List ℕ) (fuel : ℕ)
    (prev : List ℕ) (l : List ℕ) (h : l ≠ []) :
    cbcDecryptF Dk (fuel + 1) prev l =
      xorB prev (Dk (l.take 16)) ++ cbcDecryptF Dk fuel (l.take 16) (l.drop 16) := by
  match l with
  | [] => exact absurd rfl h
  | b :: bs => rfl

theorem cbcDecryptF_cbcEncryptF (Ek Dk : List ℕ → List ℕ)
    (hED : ValidBlockCipher Ek Dk) :
    ∀ (fuel : ℕ) (pt prev : List ℕ), pt.length ≤ fuel →
      pt.length % 16 = 0 → prev.length = 16 →
      cbcDecryptF Dk fuel prev (cbcEncryptF Ek fuel prev pt) = pt := by
  intro fuel
  induction fuel with
  | zero =>
    intro pt prev hle _ _
    have : pt = [] := List.eq_nil_of_length_eq_zero (by omega)
    subst this
    rfl
  | succ n ih =>
    intro pt prev hle hmod hprev
    match pt with
    | [] => rfl
    | b :: bs =>
      have hlen : 16 ≤ (b :: bs).length := by
        simp only [List.length_cons]
        simp only [List.length_cons] at hmod
        omega
      have hblk : ((b :: bs).take 16).length = 16 := by
        rw [List.length_take]
        omega
      have hx : (xorB prev ((b :: bs).take 16)).length = 16 := by
        rw [xorB_length, hprev, hblk]
        omega
      obtain ⟨hD, hE⟩ := hED (xorB prev ((b :: bs).take 16)) hx
      show cbcDecryptF Dk (n + 1) prev
        (Ek (xorB prev ((b :: bs).take 16)) ++
          cbcEncryptF Ek n (Ek (xorB prev ((b :: bs).take 16)))
            ((b :: bs).drop 16)) = b :: bs
      have hne : Ek (xorB prev ((b :: bs).take 16)) ++
          cbcEncryptF Ek n (Ek (xorB prev ((b :: bs).take 16)))
            ((b :: bs).drop 16) ≠ [] := by
        intro hh
        have := (List.append_eq_nil.mp hh).1
        rw [this] at hE
        simp at hE
      rw [cbcDecryptF_cons Dk n prev _ hne]
      rw [List.take_left' hE, List.drop_left' hE]
      rw [hD]
      rw [xorB_cancel prev ((b :: bs).take 16) (by rw [hprev, hblk])]
      rw [ih ((b :: bs).drop 16) (Ek (xorB prev ((b :: bs).take 16)))
        (by rw [List.length_drop]; simp only [List.length_cons] at hle ⊢; omega)
        (by rw [List.length_drop]; simp only [List.length_cons] at hmod ⊢; omega)
        hE]
      exact List.take_append_drop 16 (b :: bs)

theorem cbcDecrypt_cbcEncrypt (Ek Dk : List ℕ → List ℕ)
    (hED : ValidBlockCipher Ek Dk) :
    ∀ pt prev : List ℕ, pt.length % 16 = 0 → prev.length = 16 →
      cbcDecrypt Dk prev (cbcEncrypt Ek prev pt) = pt := by
  intro pt prev hmod hprev
  unfold cbcDecrypt cbcEncrypt
  rw [cbcEncryptF_length Ek Dk hED pt.length pt prev le_rfl hmod hprev]
  exact cbcDecryptF_cbcEncryptF Ek Dk hED pt.length pt prev le_rfl hmod hprev

theorem utf8DecodeOne_length (l : List ℕ) (c : ℕ) (rest : List ℕ)
    (h : utf8DecodeOne l = some (c, rest)) : rest.length < l.length := by
  match l with
  | [] => simp [utf8DecodeOne] at h
  | b0 :: t =>
    unfold utf8DecodeOne at h
    dsimp only at h
    have hd1 : (t.drop 1).length ≤ t.length := by
      rw [List.length_drop]; omega
    have hd2 : (t.drop 2).length ≤ t.length := by
      rw [List.length_drop]; omega
    have hd3 : (t.drop 3).length ≤ t.length := by
      rw [List.length_drop]; omega
    split_ifs at h <;>
      simp only [Option.some.injEq, Prod.mk.injEq] at h <;>
      rcases h with ⟨h1, h2⟩ <;>
      subst h2 <;>
      simp only [List.length_cons] <;>
      omega

theorem utf8DecodeF_mono : ∀ (f1 f2 : ℕ) (l : List ℕ),
    l.length ≤ f1 → l.length ≤ f2 → utf8DecodeF f1 l = utf8DecodeF f2 l := by
  intro f1
  induction f1 with
  | zero =>
    intro f2 l h1 _
    have : l = [] := List.eq_nil_of_length_eq_zero (by omega)
    subst this
    cases f2 <;> rfl
  | succ g1 ih =>
    intro f2 l h1 h2
    match l with
    | [] => cases f2 <;> rfl
    | b0 :: t =>
      have hf2 : ∃ g2, f2 = g2 + 1 := by
        cases f2 with
        | zero => simp at h2
        | succ g2 => exact ⟨g2, rfl⟩
      obtain ⟨g2, rfl⟩ := hf2
      show (match utf8DecodeOne (b0 :: t) with
        | some (c, rest) => (utf8DecodeF g1 rest).map (fun cs => c :: cs)
        | none => none) =
        (match utf8DecodeOne (b0 :: t) with
        | some (c, rest) => (utf8DecodeF g2 rest).map (fun cs => c :: cs)
        | none => none)
      cases hone : utf8DecodeOne (b0 :: t) with
      | none => rfl
      | some pr =>
        obtain ⟨c, rest⟩ := pr
        have hlt := utf8DecodeOne_length _ _ _ hone
        simp only [List.length_cons] at hlt h1 h2
        dsimp only
        rw [ih g2 rest (by omega) (by omega)]

theorem utf8Decode_nil : utf8Decode [] = some [] := rfl

/-- Decoding one scalar value off the front of its encoding returns the
value and the trailing bytes. -/
theorem utf8DecodeOne_encodeChar (c : ℕ) (hlt : c < 0x110000)
    (hsur : ¬(0xD800 ≤ c ∧ c < 0xE000)) (rest : List ℕ) :
    utf8DecodeOne (utf8EncodeChar c ++ rest) = some (c, rest) := by
  unfold utf8EncodeChar
  by_cases h1 : c < 0x80
  · rw [if_pos h1]
    show utf8DecodeOne (c :: rest) = _
    unfold utf8DecodeOne
    dsimp only
    rw [if_pos h1]
  · rw [if_neg h1]
    by_cases h2 : c < 0x800
    · rw [if_pos h2]
      show utf8DecodeOne ((0xC0 + c / 64) :: (0x80 + c % 64) :: rest) = _
      unfold utf8DecodeOne
      dsimp only
      rw [if_neg (by omega), if_neg (by omega), if_pos (by omega),
          if_neg (by simp)]
      simp only [List.getD_cons_zero, List.drop_one, List.tail_cons]
      rw [if_pos (show isCont (0x80 + c % 64) by unfold isCont; omega)]
      have he : (0xC0 + c / 64 - 0xC0) * 64 + (0x80 + c % 64 - 0x80) = c := by
        omega
      simp only [he]
      rw [if_pos (by omega)]
    · rw [if_neg h2]
      by_cases h3 : c < 0x10000
      · rw [if_pos h3]
        show utf8DecodeOne ((0xE0 + c / 4096) :: (0x80 + c / 64 % 64) ::
            (0x80 + c % 64) :: rest) = _
        unfold utf8DecodeOne
        dsimp only
        rw [if_neg (by omega), if_neg (by omega), if_neg (by omega),
            if_pos (by omega), if_neg (by simp)]
        simp only [List.getD_cons_zero, List.getD_cons_succ]
        rw [if_pos (show isCont (0x80 + c / 64 % 64) ∧ isCont (0x80 + c % 64) by
          unfold isCont
          refine ⟨⟨by omega, by omega⟩, by omega, by omega⟩)]
        have he : (0xE0 + c / 4096 - 0xE0) * 4096 +
            (0x80 + c / 64 % 64 - 0x80) * 64 + (0x80 + c % 64 - 0x80) = c := by
          omega
        simp only [he]
        rw [if_pos (by constructor <;> omega)]
        simp
      · rw [if_neg h3]
        show utf8DecodeOne ((0xF0 + c / 262144) :: (0x80 + c / 4096 % 64) ::
            (0x80 + c / 64 % 64) :: (0x80 + c % 64) :: rest) = _
        unfold utf8DecodeOne
        dsimp only
        rw [if_neg (by omega), if_neg (by omega), if_neg (by omega),
            if_neg (by omega), if_pos (by omega), if_neg (by simp)]
        simp only [List.getD_cons_zero, List.getD_cons_succ]
        rw [if_pos (show isCont (0x80 + c / 4096 % 64) ∧
            isCont (0x80 + c / 64 % 64) ∧ isCont (0x80 + c % 64) by
          unfold isCont
          refine ⟨⟨by omega, by omega⟩, ⟨by omega, by omega⟩, by omega, by omega⟩)]
        have he : (0xF0 + c / 262144 - 0xF0) * 262144 +
            (0x80 + c / 4096 % 64 - 0x80) * 4096 +
            (0x80 + c / 64 % 64 - 0x80) * 64 + (0x80 + c % 64 - 0x80) = c := by
          omega
        simp only [he]
        rw [if_pos (by constructor <;> omega)]
        simp

theorem utf8EncodeChar_ne_nil (c : ℕ) : utf8EncodeChar c ≠ [] := by
  unfold utf8EncodeChar
  split_ifs <;> simp

/-- UTF-8 round trip: strict decoding inverts encoding on well-formed text. -/
theorem utf8Decode_utf8Encode (s : List ℕ) (hwf : WFText s) :
    utf8Decode (utf8Encode s) = some s := by
  have main : ∀ (fuel : ℕ) (t : List ℕ), WFText t →
      (utf8Encode t).length ≤ fuel → utf8DecodeF fuel (utf8Encode t) = some t := by
    intro fuel
    induction fuel with
    | zero =>
      intro t hwf hle
      match t with
      | [] => rfl
      | c :: cs =>
        exfalso
        have h1 : utf8Encode (c :: cs) = utf8EncodeChar c ++ utf8Encode cs := by
          simp [utf8Encode]
        have h2 := utf8EncodeChar_ne_nil c
        rw [h1] at hle
        simp only [List.length_append] at hle
        have : utf8EncodeChar c = [] := List.eq_nil_of_length_eq_zero (by omega)
        exact h2 this
    | succ g ih =>
      intro t hwf hle
      match t with
      | [] => rfl
      | c :: cs =>
        have hc := hwf c (List.mem_cons_self c cs)
        have hcs : WFText cs := fun x hx => hwf x (List.mem_cons_of_mem c hx)
        have h1 : utf8Encode (c :: cs) = utf8EncodeChar c ++ utf8Encode cs := by
          simp [utf8Encode]
        have hone : utf8DecodeOne (utf8Encode (c :: cs)) = some (c, utf8Encode cs) := by
          rw [h1]
          exact utf8DecodeOne_encodeChar c hc.1 hc.2 _
        have hnn : utf8Encode (c :: cs) ≠ [] := by
          rw [h1]
          intro hh
          exact utf8EncodeChar_ne_nil c (List.append_eq_nil.mp hh).1
        have hlen : (utf8Encode cs).length ≤ g := by
          have h3 : (utf8Encode (c :: cs)).length
              = (utf8EncodeChar c).length + (utf8Encode cs).length := by
            rw [h1]
            simp
          have h2 : 1 ≤ (utf8EncodeChar c).length := by
            cases hc3 : utf8EncodeChar c with
            | nil => exact absurd hc3 (utf8EncodeChar_ne_nil c)
            | cons x xs => simp
          omega
        match henc : utf8Encode (c :: cs) with
        | [] => exact absurd henc hnn
        | b0 :: tt =>
          rw [henc] at hone
          show (match utf8DecodeOne (b0 :: tt) with
            | some (cc, rest) => (utf8DecodeF g rest).map (fun cs => cc :: cs)
            | none => none) = some (c :: cs)
          rw [hone]
          dsimp only
          rw [ih _ hcs hlen]
          rfl
  exact main (utf8Encode s).length s hwf le_rfl

/-- Round trip of the symmetric cipher at byte level and through the
UTF-8 interface: decrypting an encryption returns the original text. -/
theorem AESCipher.decrypt_encrypt (E D : List ℕ → List ℕ → List ℕ)
    (key : List ℕ) (hED : ValidBlockCipher (E key) (D key))
    (iv : List ℕ) (hiv : iv.length = 16) (s : List ℕ) (hwf : WFText s) :
    AESCipher.decrypt D key (AESCipher.encrypt E key iv s) = .ok s := by
  unfold AESCipher.encrypt AESCipher.decrypt
  have hpadmod := padPKCS7_length_mod (utf8Encode s)
  have hpadpos := padPKCS7_length_pos (utf8Encode s)
  have hbodylen : (cbcEncrypt (E key) iv (padPKCS7 (utf8Encode s))).length
      = (padPKCS7 (utf8Encode s)).length :=
    cbcEncrypt_length (E key) (D key) hED _ iv hpadmod hiv
  have htotal : (iv ++ cbcEncrypt (E key) iv (padPKCS7 (utf8Encode s))).length
      = 16 + (padPKCS7 (utf8Encode s)).length := by
    rw [List.length_append, hiv, hbodylen]
  rw [if_neg (by omega)]
  rw [List.drop_left' hiv, List.take_left' hiv]
  rw [if_neg (by rw [hbodylen]; omega)]
  rw [cbcDecrypt_cbcEncrypt (E key) (D key) hED _ iv hpadmod hiv]
  rw [unpad_pad]
  dsimp only
  rw [utf8Decode_utf8Encode s hwf]

/-- The derived symmetric key is always exactly 32 bytes. -/
theorem sha256_length (msg : List ℕ) : (sha256 msg).length = 32 := by
  unfold sha256
  simp [w2b]

theorem w2b_lt (w : ℕ) : ∀ x ∈ w2b w, x < 256 := by
  intro x hx
  simp only [w2b, List.mem_cons, List.not_mem_nil, or_false] at hx
  rcases hx with h | h | h | h <;> subst h <;> omega

/-- The digest is made of bytes. -/
theorem sha256_isBytes (msg : List ℕ) : IsBytes (sha256 msg) := by
  unfold sha256 IsBytes
  simp only [List.forall_mem_append]
  exact ⟨⟨⟨⟨⟨⟨⟨w2b_lt _, w2b_lt _⟩, w2b_lt _⟩, w2b_lt _⟩, w2b_lt _⟩,
         w2b_lt _⟩, w2b_lt _⟩, w2b_lt _⟩

theorem b64dch_b64ch : ∀ s : ℕ, s < 64 → b64dch (b64ch s) = some s := by
  decide

theorem b64ch_lt (s : ℕ) (h : s < 64) : b64ch s < 123 := by
  unfold b64ch
  split_ifs <;> omega

theorem b64ch_ne_eq (s : ℕ) (h : s < 64) : b64ch s ≠ 61 := by
  revert s
  decide

theorem b64dch_sound (c s : ℕ) (h : b64dch c = some s) :
    b64ch s = c ∧ s < 64 := by
  unfold b64dch at h
  split_ifs at h <;>
    simp only [Option.some.injEq] at h <;>
    subst h <;>
    unfold b64ch <;>
    split_ifs <;>
    omega

/-- Base64 round trip on byte lists. -/
theorem b64decode_b64encode : ∀ bs : List ℕ, IsBytes bs →
    b64decode (b64encode bs) = some bs := by
  have main : ∀ (n : ℕ) (bs : List ℕ), bs.length ≤ n → IsBytes bs →
      b64decode (b64encode bs) = some bs := by
    intro n
    induction n with
    | zero =>
      intro bs hle _
      have : bs = [] := List.eq_nil_of_length_eq_zero (by omega)
      subst this
      rfl
    | succ n ih =>
      intro bs hle hbytes
      match bs with
      | [] => rfl
      | [a] =>
        have ha : a < 256 := hbytes a (by simp)
        show b64decode [b64ch (a / 4), b64ch (a % 4 * 16), 61, 61] = some [a]
        unfold b64decode
        rw [if_pos rfl, if_pos ⟨rfl, rfl⟩]
        rw [b64dch_b64ch (a / 4) (by omega), b64dch_b64ch (a % 4 * 16) (by omega)]
        dsimp only
        rw [if_pos (by omega)]
        have : a / 4 * 4 + a % 4 * 16 / 16 = a := by omega
        rw [this]
      | [a, b] =>
        have ha : a < 256 := hbytes a (by simp)
        have hb : b < 256 := hbytes b (by simp)
        show b64decode [b64ch (a / 4), b64ch (a % 4 * 16 + b / 16),
            b64ch (b % 16 * 4), 61] = some [a, b]
        unfold b64decode
        rw [if_neg (b64ch_ne_eq (b % 16 * 4) (by omega)), if_pos rfl, if_pos rfl]
        rw [b64dch_b64ch (a / 4) (by omega),
            b64dch_b64ch (a % 4 * 16 + b / 16) (by omega),
            b64dch_b64ch (b % 16 * 4) (by omega)]
        dsimp only
        rw [if_pos (by omega)]
        have h1 : a / 4 * 4 + (a % 4 * 16 + b / 16) / 16 = a := by omega
        have h2 : (a % 4 * 16 + b / 16) % 16 * 16 + b % 16 * 4 / 4 = b := by omega
        rw [h1, h2]
      | a :: b :: c :: rest =>
        have ha : a < 256 := hbytes a (by simp)
        have hb : b < 256 := hbytes b (by simp)
        have hc : c < 256 := hbytes c (by simp)
        have hrest : IsBytes rest := fun x hx => hbytes x (by simp [hx])
        show b64decode (b64ch (a / 4) :: b64ch (a % 4 * 16 + b / 16) ::
            b64ch (b % 16 * 4 + c / 64) :: b64ch (c % 64) :: b64encode rest)
            = some (a :: b :: c :: rest)
        unfold b64decode
        rw [if_neg (b64ch_ne_eq (b % 16 * 4 + c / 64) (by omega)),
            if_neg (b64ch_ne_eq (c % 64) (by omega))]
        rw [b64dch_b64ch (a / 4) (by omega),
            b64dch_b64ch (a % 4 * 16 + b / 16) (by omega),
            b64dch_b64ch (b % 16 * 4 + c / 64) (by omega),
            b64dch_b64ch (c % 64) (by omega)]
        dsimp only
        rw [ih rest (by simp only [List.length_cons] at hle; omega) hrest]
        have h1 : a / 4 * 4 + (a % 4 * 16 + b / 16) / 16 = a := by omega
        have h2 : (a % 4 * 16 + b / 16) % 16 * 16 + (b % 16 * 4 + c / 64) / 4
            = b := by omega
        have h3 : (b % 16 * 4 + c / 64) % 4 * 64 + c % 64 = c := by omega
        rw [Option.map]
        rw [h1, h2, h3]
  intro bs
  exact main bs.length bs le_rfl

/-- Base64 canonicity: the strict decoder accepts only the canonical
encoding, so a successful decode pins the input down completely. -/
theorem b64decode_canonical : ∀ (s bs : List ℕ), b64decode s = some bs →
    s = b64encode bs ∧ IsBytes bs := by
  have main : ∀ (n : ℕ) (s bs : List ℕ), s.length ≤ n → b64decode s = some bs →
      s = b64encode bs ∧ IsBytes bs := by
    intro n
    induction n with
    | zero =>
      intro s bs hle h
      have : s = [] := List.eq_nil_of_length_eq_zero (by omega)
      subst this
      unfold b64decode at h
      simp only [Option.some.injEq] at h
      subst h
      exact ⟨rfl, by intro x hx; simp at hx⟩
    | succ n ih =>
      intro s bs hle h
      match s with
      | [] =>
        unfold b64decode at h
        simp only [Option.some.injEq] at h
        subst h
        exact ⟨rfl, by intro x hx; simp at hx⟩
      | [c0] => exact absurd h (by unfold b64decode; simp)
      | [c0, c1] => exact absurd h (by unfold b64decode; simp)
      | [c0, c1, c2] => exact absurd h (by unfold b64decode; simp)
      | c0 :: c1 :: c2 :: c3 :: rest =>
        unfold b64decode at h
        by_cases h2eq : c2 = 61
        · rw [if_pos h2eq] at h
          by_cases h3r : c3 = 61 ∧ rest = []
          · rw [if_pos h3r] at h
            obtain ⟨h3eq, hrnil⟩ := h3r
            cases hd0 : b64dch c0 with
            | none => rw [hd0] at h; exact absurd h (by simp)
            | some s0 =>
              cases hd1 : b64dch c1 with
              | none => rw [hd0, hd1] at h; exact absurd h (by simp)
              | some s1 =>
                rw [hd0, hd1] at h
                dsimp only at h
                by_cases hs1 : s1 % 16 = 0
                · rw [if_pos hs1] at h
                  simp only [Option.some.injEq] at h
                  subst h
                  obtain ⟨hc0, hs0lt⟩ := b64dch_sound c0 s0 hd0
                  obtain ⟨hc1, hs1lt⟩ := b64dch_sound c1 s1 hd1
                  subst h2eq h3eq hrnil
                  constructor
                  · show _ = [b64ch ((s0 * 4 + s1 / 16) / 4),
                      b64ch ((s0 * 4 + s1 / 16) % 4 * 16), 61, 61]
                    have e0 : (s0 * 4 + s1 / 16) / 4 = s0 := by omega
                    have e1 : (s0 * 4 + s1 / 16) % 4 * 16 = s1 := by omega
                    rw [e0, e1, hc0, hc1]
                  · intro x hx
                    simp only [List.mem_singleton] at hx
                    subst hx
                    omega
                · rw [if_neg hs1] at h
                  exact absurd h (by simp)
          · rw [if_neg h3r] at h
            exact absurd h (by simp)
        · rw [if_neg h2eq] at h
          by_cases h3eq : c3 = 61
          · rw [if_pos h3eq] at h
            by_cases hrnil : rest = []
            · rw [if_pos hrnil] at h
              cases hd0 : b64dch c0 with
              | none => rw [hd0] at h; exact absurd h (by simp)
              | some s0 =>
                cases hd1 : b64dch c1 with
                | none => rw [hd0, hd1] at h; exact absurd h (by simp)
                | some s1 =>
                  cases hd2 : b64dch c2 with
                  | none => rw [hd0, hd1, hd2] at h; exact absurd h (by simp)
                  | some s2 =>
                    rw [hd0, hd1, hd2] at h
                    dsimp only at h
                    by_cases hs2 : s2 % 4 = 0
                    · rw [if_pos hs2] at h
                      simp only [Option.some.injEq] at h
                      subst h
                      obtain ⟨hc0, hs0lt⟩ := b64dch_sound c0 s0 hd0
                      obtain ⟨hc1, hs1lt⟩ := b64dch_sound c1 s1 hd1
                      obtain ⟨hc2, hs2lt⟩ := b64dch_sound c2 s2 hd2
                      subst h3eq hrnil
                      constructor
                      · show _ = [b64ch ((s0 * 4 + s1 / 16) / 4),
                          b64ch ((s0 * 4 + s1 / 16) % 4 * 16 +
                            (s1 % 16 * 16 + s2 / 4) / 16),
                          b64ch ((s1 % 16 * 16 + s2 / 4) % 16 * 4), 61]
                        have e0 : (s0 * 4 + s1 / 16) / 4 = s0 := by omega
                        have e1 : (s0 * 4 + s1 / 16) % 4 * 16 +
                            (s1 % 16 * 16 + s2 / 4) / 16 = s1 := by omega
                        have e2 : (s1 % 16 * 16 + s2 / 4) % 16 * 4 = s2 := by
                          omega
                        rw [e0, e1, e2, hc0, hc1, hc2]
                      · intro x hx
                        simp only [List.mem_cons, List.not_mem_nil, or_false] at hx
                        rcases hx with hx | hx <;> subst hx <;> omega
                    · rw [if_neg hs2] at h
                      exact absurd h (by simp)
            · rw [if_neg hrnil] at h
              exact absurd h (by simp)
          · rw [if_neg h3eq] at h
            cases hd0 : b64dch c0 with
            | none => rw [hd0] at h; exact absurd h (by simp)
            | some s0 =>
              cases hd1 : b64dch c1 with
              | none => rw [hd0, hd1] at h; exact absurd h (by simp)
              | some s1 =>
                cases hd2 : b64dch c2 with
                | none => rw [hd0, hd1, hd2] at h; exact absurd h (by simp)
                | some s2 =>
                  cases hd3 : b64dch c3 with
                  | none => rw [hd0, hd1, hd2, hd3] at h; exact absurd h (by simp)
                  | some s3 =>
                    rw [hd0, hd1, hd2, hd3] at h
                    dsimp only at h
                    cases hdr : b64decode rest with
                    | none => rw [hdr] at h; exact absurd h (by simp)
                    | some bs0 =>
                      rw [hdr] at h
                      simp only [Option.map, Option.some.injEq] at h
                      subst h
                      obtain ⟨hrec, hrb⟩ := ih rest bs0
                        (by simp only [List.length_cons] at hle; omega) hdr
                      obtain ⟨hc0, hs0lt⟩ := b64dch_sound c0 s0 hd0
                      obtain ⟨hc1, hs1lt⟩ := b64dch_sound c1 s1 hd1
                      obtain ⟨hc2, hs2lt⟩ := b64dch_sound c2 s2 hd2
                      obtain ⟨hc3, hs3lt⟩ := b64dch_sound c3 s3 hd3
                      constructor
                      · show _ = b64ch ((s0 * 4 + s1 / 16) / 4) ::
                          b64ch ((s0 * 4 + s1 / 16) % 4 * 16 +
                            (s1 % 16 * 16 + s2 / 4) / 16) ::
                          b64ch ((s1 % 16 * 16 + s2 / 4) % 16 * 4 +
                            (s2 % 4 * 64 + s3) / 64) ::
                          b64ch ((s2 % 4 * 64 + s3) % 64) :: b64encode bs0
                        have e0 : (s0 * 4 + s1 / 16) / 4 = s0 := by omega
                        have e1 : (s0 * 4 + s1 / 16) % 4 * 16 +
                            (s1 % 16 * 16 + s2 / 4) / 16 = s1 := by omega
                        have e2 : (s1 % 16 * 16 + s2 / 4) % 16 * 4 +
                            (s2 % 4 * 64 + s3) / 64 = s2 := by omega
                        have e3 : (s2 % 4 * 64 + s3) % 64 = s3 := by omega
                        rw [e0, e1, e2, e3, hc0, hc1, hc2, hc3, hrec]
                      · intro x hx
                        simp only [List.mem_cons] at hx
                        rcases hx with hx | hx | hx | hx
                        · subst hx; omega
                        · subst hx; omega
                        · subst hx; omega
                        · exact hrb x hx
  intro s bs h
  exact main s.length s bs le_rfl h

theorem pemHeader_length : pemHeader.length = 27 := rfl

theorem pemFooterB_length : pemFooterB.length = 26 := rfl

theorem pemDecode_pemEncode (der : List ℕ) (hder : IsBytes der) :
    pemDecode (pemEncode der) = some der := by
  unfold pemEncode pemDecode
  have hlen : (pemHeader ++ b64encode der ++ pemFooterB).length
      = 27 + (b64encode der).length + 26 := by
    rw [List.length_append, List.length_append, pemHeader_length,
        pemFooterB_length]
  have hhb : (pemHeader ++ b64encode der).length
      = 27 + (b64encode der).length := by
    rw [List.length_append, pemHeader_length]
  have hc1 : 53 ≤ (pemHeader ++ b64encode der ++ pemFooterB).length := by
    omega
  have hc2 : (pemHeader ++ b64encode der ++ pemFooterB).take 27 = pemHeader := by
    rw [List.append_assoc]
    exact List.take_left' pemHeader_length
  have hc3 : (pemHeader ++ b64encode der ++ pemFooterB).drop
      ((pemHeader ++ b64encode der ++ pemFooterB).length - 26) = pemFooterB := by
    rw [hlen]
    have he : 27 + (b64encode der).length + 26 - 26
        = (pemHeader ++ b64encode der).length := by omega
    rw [he]
    exact List.drop_left' rfl
  rw [if_pos ⟨hc1, hc2, hc3⟩]
  rw [List.append_assoc, List.drop_left' pemHeader_length]
  have he2 : (pemHeader ++ (b64encode der ++ pemFooterB)).length - 53
      = (b64encode der).length := by
    rw [← List.append_assoc, hlen]
    omega
  rw [he2, List.take_left' rfl]
  exact b64decode_b64encode der hder

theorem pemDecode_canonical (s der : List ℕ) (h : pemDecode s = some der) :
    s = pemEncode der ∧ IsBytes der := by
  unfold pemDecode at h
  by_cases hcond : 53 ≤ s.length ∧ s.take 27 = pemHeader ∧
      s.drop (s.length - 26) = pemFooterB
  · rw [if_pos hcond] at h
    obtain ⟨hslen, hhead, hfoot⟩ := hcond
    obtain ⟨hmid, hbytes⟩ := b64decode_canonical _ _ h
    refine ⟨?_, hbytes⟩
    unfold pemEncode
    have hs1 : s = s.take 27 ++ s.drop 27 := (List.take_append_drop 27 s).symm
    have hs2 : s.drop 27 = (s.drop 27).take (s.length - 53)
        ++ (s.drop 27).drop (s.length - 53) :=
      (List.take_append_drop (s.length - 53) (s.drop 27)).symm
    have hs3 : (s.drop 27).drop (s.length - 53) = s.drop (s.length - 26) := by
      rw [List.drop_drop]
      congr 1
      omega
    calc s = s.take 27 ++ s.drop 27 := hs1
      _ = s.take 27 ++ ((s.drop 27).take (s.length - 53)
            ++ (s.drop 27).drop (s.length - 53)) := by rw [← hs2]
      _ = pemHeader ++ (b64encode der ++ pemFooterB) := by
            rw [hhead, ← hmid, hs3, hfoot]
      _ = pemHeader ++ b64encode der ++ pemFooterB := by
            rw [List.append_assoc]
  · rw [if_neg hcond] at h
    exact absurd h (by simp)

theorem spkiHeader_length : spkiHeader.length = 26 := rfl

theorem spkiHeader_isBytes : IsBytes spkiHeader := by decide

theorem parsePublicKey_encodePublicKey {G : Type}
    (pointBytes : G → List ℕ) (bytesToPoint : List ℕ → Option G)
    (hcodec : ValidPointCodec pointBytes bytesToPoint) (P : G) :
    parsePublicKey bytesToPoint (encodePublicKey pointBytes P) = some P := by
  unfold parsePublicKey encodePublicKey
  have hbytes : IsBytes (spkiHeader ++ pointBytes P) := by
    intro x hx
    rcases List.mem_append.mp hx with hx | hx
    · exact spkiHeader_isBytes x hx
    · exact hcodec.2.2 P x hx
  rw [pemDecode_pemEncode _ hbytes]
  dsimp only
  rw [if_pos (List.take_left' spkiHeader_length)]
  rw [List.drop_left' spkiHeader_length]
  exact hcodec.1 P

theorem parsePublicKey_canonical {G : Type}
    (pointBytes : G → List ℕ) (bytesToPoint : List ℕ → Option G)
    (hcodec : ValidPointCodec pointBytes bytesToPoint) (s : List ℕ) (P : G)
    (h : parsePublicKey bytesToPoint s = some P) :
    s = encodePublicKey pointBytes P := by
  unfold parsePublicKey at h
  cases hdec : pemDecode s with
  | none => rw [hdec] at h; exact absurd h (by simp)
  | some der =>
    rw [hdec] at h
    dsimp only at h
    by_cases htk : der.take 26 = spkiHeader
    · rw [if_pos htk] at h
      have hpb := hcodec.2.1 _ _ h
      obtain ⟨hs, _⟩ := pemDecode_canonical s der hdec
      unfold encodePublicKey
      rw [hs]
      congr 1
      calc der = der.take 26 ++ der.drop 26 := (List.take_append_drop 26 der).symm
        _ = spkiHeader ++ pointBytes P := by rw [htk, hpb]
    · rw [if_neg htk] at h
      exact absurd h (by simp)

/-- The two DH shared points coincide: `a • (b • g) = b • (a • g)`. -/
theorem dh_smul_comm {G : Type} [AddCommMonoid G] (g : G) (a b : ℕ) :
    a • (b • g) = b • (a • g) := by
  rw [smul_smul, smul_smul, Nat.mul_comm]

theorem idCipher_valid (key : List ℕ) :
    ValidBlockCipher (idCipher key) (idCipher key) :=
  fun _ hb => ⟨rfl, hb⟩

theorem demoCodec_valid : ValidPointCodec demoPointBytes demoBytesToPoint := by
  refine ⟨by decide, ?_, by decide⟩
  intro b P h
  match b with
  | [] => exact absurd h (by simp [demoBytesToPoint])
  | [x] =>
    unfold demoBytesToPoint at h
    dsimp only at h
    by_cases hx : x < 101
    · rw [if_pos hx] at h
      simp only [Option.some.injEq] at h
      subst h
      unfold demoPointBytes
      rw [ZMod.val_cast_of_lt hx]
    · rw [if_neg hx] at h
      exact absurd h (by simp)
  | x :: y :: rest => exact absurd h (by simp [demoBytesToPoint])

/- ## Characterisation of `AESCipher.decrypt`'s outcomes. -/

theorem decrypt_paddingError_iff (D : List ℕ → List ℕ → List ℕ)
    (key ct : List ℕ) :
    AESCipher.decrypt D key ct = .error .paddingError ↔
      16 ≤ ct.length ∧ (ct.drop 16).length % 16 = 0 ∧
      unpadPKCS7 (cbcDecrypt (D key) (ct.take 16) (ct.drop 16)) = none := by
  unfold AESCipher.decrypt
  by_cases h1 : ct.length < 16
  · rw [if_pos h1]
    constructor
    · intro h
      simp at h
    · rintro ⟨ha, _, _⟩
      omega
  · rw [if_neg h1]
    by_cases h2 : (ct.drop 16).length % 16 ≠ 0
    · rw [if_pos h2]
      constructor
      · intro h
        simp at h
      · rintro ⟨_, hb, _⟩
        exact absurd hb h2
    · rw [if_neg h2]
      cases hu : unpadPKCS7 (cbcDecrypt (D key) (ct.take 16) (ct.drop 16)) with
      | none =>
        dsimp only
        exact ⟨fun _ => ⟨by omega, by omega, rfl⟩, fun _ => rfl⟩
      | some p =>
        dsimp only
        cases hd : utf8Decode p with
        | none =>
          dsimp only
          constructor
          · intro h
            simp at h
          · rintro ⟨_, _, hc⟩
            exact absurd hc (by simp)
        | some s =>
          dsimp only
          constructor
          · intro h
            simp at h
          · rintro ⟨_, _, hc⟩
            exact absurd hc (by simp)

theorem decrypt_of_unpad_some (D : List ℕ → List ℕ → List ℕ)
    (key ct p : List ℕ) (h1 : 16 ≤ ct.length)
    (h2 : (ct.drop 16).length % 16 = 0)
    (hu : unpadPKCS7 (cbcDecrypt (D key) (ct.take 16) (ct.drop 16)) = some p) :
    AESCipher.decrypt D key ct =
      match utf8Decode p with
      | some s => Except.ok s
      | none => Except.error DecryptError.unicodeError := by
  unfold AESCipher.decrypt
  rw [if_neg (by omega), if_neg (by omega), hu]
  dsimp only
  cases utf8Decode p <;> rfl

/- ## Claim theorems. -/

/-- C1: for every valid AES key (any key whose block permutation the
library accepts, i.e. any `ValidBlockCipher` pair) and every plaintext
(any well-formed text, the type `encrypt` accepts), decrypting the
encryption returns the plaintext exactly — including the empty plaintext,
which round-trips to the empty plaintext. -/
theorem c1_roundtrip (E D : List ℕ → List ℕ → List ℕ) (key : List ℕ)
    (hED : ValidBlockCipher (E key) (D key)) (iv : List ℕ)
    (hiv : iv.length = 16) (s : List ℕ) (hwf : WFText s) :
    AESCipher.decrypt D key (AESCipher.encrypt E key iv s) = .ok s ∧
    AESCipher.decrypt D key (AESCipher.encrypt E key iv []) = .ok [] :=
  ⟨AESCipher.decrypt_encrypt E D key hED iv hiv s hwf,
   AESCipher.decrypt_encrypt E D key hED iv hiv []
     (by intro c hc; simp at hc)⟩

theorem c1_roundtrip_witness :
    ValidBlockCipher (idCipher [0]) (idCipher [0]) ∧
    (List.replicate 16 0).length = 16 ∧ WFText [72, 105, 233] ∧
    AESCipher.decrypt idCipher [0]
      (AESCipher.encrypt idCipher [0] (List.replicate 16 0) [72, 105, 233])
      = .ok [72, 105, 233] ∧
    AESCipher.decrypt idCipher [0]
      (AESCipher.encrypt idCipher [0] (List.replicate 16 0) []) = .ok [] :=
  ⟨idCipher_valid [0], by decide, by decide,
   (c1_roundtrip idCipher idCipher [0] (idCipher_valid [0])
     (List.replicate 16 0) (by decide) [72, 105, 233] (by decide)).1,
   (c1_roundtrip idCipher idCipher [0] (idCipher_valid [0])
     (List.replicate 16 0) (by decide) [72, 105, 233] (by decide)).2⟩

/-- C6: `encrypt` returns `IV || ciphertext` where the IV is the 16-byte
value drawn fresh from `os.urandom(16)` for this call and the remainder is
the CBC encryption of the block-padded plaintext; the output length is 16
plus a positive multiple of the 16-byte block size. -/
theorem c6_encrypt_structure (E D : List ℕ → List ℕ → List ℕ)
    (key : List ℕ) (hED : ValidBlockCipher (E key) (D key)) (iv : List ℕ)
    (hiv : iv.length = 16) (s : List ℕ) :
    AESCipher.encrypt E key iv s
      = iv ++ cbcEncrypt (E key) iv (padPKCS7 (utf8Encode s)) ∧
    (AESCipher.encrypt E key iv s).take 16 = iv ∧
    ∃ m : ℕ, 0 < m ∧ (AESCipher.encrypt E key iv s).length = 16 + 16 * m := by
  refine ⟨rfl, ?_, ?_⟩
  · unfold AESCipher.encrypt
    exact List.take_left' hiv
  · unfold AESCipher.encrypt
    have hlen := cbcEncrypt_length (E key) (D key) hED
      (padPKCS7 (utf8Encode s)) iv (padPKCS7_length_mod (utf8Encode s)) hiv
    have hmod := padPKCS7_length_mod (utf8Encode s)
    have hpos := padPKCS7_length_pos (utf8Encode s)
    refine ⟨(padPKCS7 (utf8Encode s)).length / 16, by omega, ?_⟩
    rw [List.length_append, hiv, hlen]
    omega

theorem c6_encrypt_structure_witness :
    ValidBlockCipher (idCipher [0]) (idCipher [0]) ∧
    (List.replicate 16 7).length = 16 ∧
    (AESCipher.encrypt idCipher [0] (List.replicate 16 7) [65]
      = List.replicate 16 7 ++
        cbcEncrypt (idCipher [0]) (List.replicate 16 7)
          (padPKCS7 (utf8Encode [65])) ∧
    (AESCipher.encrypt idCipher [0] (List.replicate 16 7) [65]).take 16
      = List.replicate 16 7 ∧
    ∃ m : ℕ, 0 < m ∧
      (AESCipher.encrypt idCipher [0] (List.replicate 16 7) [65]).length
        = 16 + 16 * m) :=
  ⟨idCipher_valid [0], by decide,
   c6_encrypt_structure idCipher idCipher [0] (idCipher_valid [0])
     (List.replicate 16 7) (by decide) [65]⟩

/-- C8: encrypting the same plaintext twice under the same key with the
two distinct freshly drawn IVs yields different ciphertexts, so equal
plaintexts are not linkable through equal ciphertexts. -/
theorem c8_two_run (E : List ℕ → List ℕ → List ℕ) (key : List ℕ)
    (iv1 iv2 : List ℕ) (h1 : iv1.length = 16) (h2 : iv2.length = 16)
    (hne : iv1 ≠ iv2) (s : List ℕ) :
    AESCipher.encrypt E key iv1 s ≠ AESCipher.encrypt E key iv2 s := by
  intro h
  apply hne
  have := congrArg (List.take 16) h
  unfold AESCipher.encrypt at this
  rw [List.take_left' h1, List.take_left' h2] at this
  exact this

theorem c8_two_run_witness :
    (List.replicate 16 0).length = 16 ∧ (List.replicate 16 1).length = 16 ∧
    List.replicate 16 0 ≠ List.replicate 16 (1 : ℕ) ∧
    AESCipher.encrypt idCipher [0] (List.replicate 16 0) [65]
      ≠ AESCipher.encrypt idCipher [0] (List.replicate 16 1) [65] :=
  ⟨by decide, by decide, by decide,
   c8_two_run idCipher [0] (List.replicate 16 0) (List.replicate 16 1)
     (by decide) (by decide) (by decide) [65]⟩

theorem cbcDecrypt_single (Dk : List ℕ → List ℕ) (iv blk : List ℕ)
    (hblk : blk.length = 16) : cbcDecrypt Dk iv blk = xorB iv (Dk blk) := by
  unfold cbcDecrypt
  rw [hblk]
  have hne : blk ≠ [] := by
    intro h
    rw [h] at hblk
    simp at hblk
  rw [show (16 : ℕ) = 15 + 1 from rfl, cbcDecryptF_cons Dk 15 iv blk hne]
  rw [List.take_of_length_le (by omega), List.drop_of_length_le (by omega)]
  rw [show cbcDecryptF Dk 15 blk [] = [] from rfl]
  simp

/-- C5 (amended): `decrypt` fails with `PaddingError` exactly when the
16-byte IV split and block-aligned CBC decryption go through and the
resulting padding bytes are structurally invalid; when the padding is
valid, it returns the UTF-8 decoding of the unpadded plaintext bytes if
they decode, and fails with a Unicode decode error otherwise. -/
theorem c5_padding_iff (D : List ℕ → List ℕ → List ℕ) (key ct : List ℕ) :
    (AESCipher.decrypt D key ct = .error .paddingError ↔
      16 ≤ ct.length ∧ (ct.drop 16).length % 16 = 0 ∧
      unpadPKCS7 (cbcDecrypt (D key) (ct.take 16) (ct.drop 16)) = none) ∧
    (∀ p : List ℕ, 16 ≤ ct.length → (ct.drop 16).length % 16 = 0 →
      unpadPKCS7 (cbcDecrypt (D key) (ct.take 16) (ct.drop 16)) = some p →
      AESCipher.decrypt D key ct =
        match utf8Decode p with
        | some s => Except.ok s
        | none => Except.error DecryptError.unicodeError) :=
  ⟨decrypt_paddingError_iff D key ct,
   fun p h1 h2 hu => decrypt_of_unpad_some D key ct p h1 h2 hu⟩

theorem c5_padding_iff_witness :
    AESCipher.decrypt idCipher [0]
      (List.replicate 16 0 ++ List.replicate 16 0) = .error .paddingError ∧
    AESCipher.decrypt idCipher [0]
      (List.replicate 16 0 ++ (65 :: List.replicate 15 15)) = .ok [65] := by
  constructor
  · exact (c5_padding_iff idCipher [0]
      (List.replicate 16 0 ++ List.replicate 16 0)).1.mpr
      ⟨by decide, by decide, by decide⟩
  · have h := (c5_padding_iff idCipher [0]
      (List.replicate 16 0 ++ (65 :: List.replicate 15 15))).2 [65]
      (by decide) (by decide) (by decide)
    rw [h]
    decide

/-- C5 counterexample to the claim as stated: a ciphertext whose padding
is structurally valid after CBC decryption (it unpads to the single byte
`0x80`), yet `decrypt` does not return that unpadded plaintext — it fails
with a Unicode decode error, because `0x80` is not valid UTF-8. -/
theorem c5_counterexample :
    unpadPKCS7 (cbcDecrypt (idCipher [0])
      ((List.replicate 16 0 ++ (128 :: List.replicate 15 15)).take 16)
      ((List.replicate 16 0 ++ (128 :: List.replicate 15 15)).drop 16))
      = some [128] ∧
    AESCipher.decrypt idCipher [0]
      (List.replicate 16 0 ++ (128 :: List.replicate 15 15))
      ≠ .ok [128] ∧
    AESCipher.decrypt idCipher [0]
      (List.replicate 16 0 ++ (128 :: List.replicate 15 15))
      = .error .unicodeError := by
  refine ⟨by decide, by decide, by decide⟩

/-- C10: the cipher interface is UTF-8-restricted: the round trip holds
for every text string, but there are well-formed ciphertexts with valid
padding whose unpadded bytes are not valid UTF-8, on which `decrypt`
fails with a Unicode decode error rather than `PaddingError`; and no text
string can produce non-UTF-8 plaintext bytes at this interface. -/
theorem c10_utf8_interface (E D : List ℕ → List ℕ → List ℕ) (key : List ℕ)
    (hED : ValidBlockCipher (E key) (D key)) :
    (∀ iv s, iv.length = 16 → WFText s →
      AESCipher.decrypt D key (AESCipher.encrypt E key iv s) = .ok s) ∧
    (∃ ct : List ℕ, 16 ≤ ct.length ∧ (ct.drop 16).length % 16 = 0 ∧
      unpadPKCS7 (cbcDecrypt (D key) (ct.take 16) (ct.drop 16)) = some [128] ∧
      AESCipher.decrypt D key ct = .error .unicodeError ∧
      AESCipher.decrypt D key ct ≠ .error .paddingError) ∧
    (∀ b : List ℕ, utf8Decode b = none → ∀ s, WFText s → utf8Encode s ≠ b) := by
  refine ⟨?_, ?_, ?_⟩
  · intro iv s hiv hwf
    exact AESCipher.decrypt_encrypt E D key hED iv hiv s hwf
  · have hpadlen : (128 :: List.replicate 15 15 : List ℕ).length = 16 := by
      decide
    have hivlen : (List.replicate 16 0 : List ℕ).length = 16 := by decide
    have hblklen : (xorB (List.replicate 16 0)
        (128 :: List.replicate 15 15)).length = 16 := by
      rw [xorB_length, hivlen, hpadlen]
      omega
    obtain ⟨hD, hE⟩ := hED _ hblklen
    refine ⟨List.replicate 16 0 ++ E key (xorB (List.replicate 16 0)
      (128 :: List.replicate 15 15)), ?_, ?_, ?_, ?_, ?_⟩
    case _ =>
      rw [List.length_append, hivlen, hE]
      omega
    case _ =>
      rw [List.drop_left' hivlen, hE]
    case _ =>
      rw [List.take_left' hivlen, List.drop_left' hivlen]
      rw [cbcDecrypt_single (D key) _ _ hE]
      rw [hD]
      rw [xorB_cancel _ _ (by rw [hivlen, hpadlen])]
      decide
    case _ =>
      have hu : unpadPKCS7 (cbcDecrypt (D key)
          ((List.replicate 16 0 ++ E key (xorB (List.replicate 16 0)
            (128 :: List.replicate 15 15))).take 16)
          ((List.replicate 16 0 ++ E key (xorB (List.replicate 16 0)
            (128 :: List.replicate 15 15))).drop 16)) = some [128] := by
        rw [List.take_left' hivlen, List.drop_left' hivlen]
        rw [cbcDecrypt_single (D key) _ _ hE]
        rw [hD]
        rw [xorB_cancel _ _ (by rw [hivlen, hpadlen])]
        decide
      rw [decrypt_of_unpad_some D key _ [128]
        (by rw [List.length_append, hivlen, hE]; omega)
        (by rw [List.drop_left' hivlen, hE]) hu]
      have hdec : utf8Decode [128] = none := by decide
      rw [hdec]
    case _ =>
      have hu : unpadPKCS7 (cbcDecrypt (D key)
          ((List.replicate 16 0 ++ E key (xorB (List.replicate 16 0)
            (128 :: List.replicate 15 15))).take 16)
          ((List.replicate 16 0 ++ E key (xorB (List.replicate 16 0)
            (128 :: List.replicate 15 15))).drop 16)) = some [128] := by
        rw [List.take_left' hivlen, List.drop_left' hivlen]
        rw [cbcDecrypt_single (D key) _ _ hE]
        rw [hD]
        rw [xorB_cancel _ _ (by rw [hivlen, hpadlen])]
        decide
      rw [decrypt_of_unpad_some D key _ [128]
        (by rw [List.length_append, hivlen, hE]; omega)
        (by rw [List.drop_left' hivlen, hE]) hu]
      have hdec : utf8Decode [128] = none := by decide
      rw [hdec]
      simp
  · intro b hb s hwf hc
    rw [← hc, utf8Decode_utf8Encode s hwf] at hb
    exact absurd hb (by simp)

theorem c10_utf8_interface_witness :
    ValidBlockCipher (idCipher [0]) (idCipher [0]) ∧
    AESCipher.decrypt idCipher [0]
      (AESCipher.encrypt idCipher [0] (List.replicate 16 0) [72, 105])
      = .ok [72, 105] ∧
    AESCipher.decrypt idCipher [0]
      (List.replicate 16 0 ++ (128 :: List.replicate 15 15))
      = .error .unicodeError ∧
    utf8Decode [128] = none ∧
    utf8Encode [72, 105] ≠ [128] :=
  ⟨idCipher_valid [0],
   (c10_utf8_interface idCipher idCipher [0] (idCipher_valid [0])).1
     (List.replicate 16 0) [72, 105] (by decide) (by decide),
   by decide, by decide,
   (c10_utf8_interface idCipher idCipher [0] (idCipher_valid [0])).2.2
     [128] (by decide) [72, 105] (by decide)⟩

/-- C9: the operations are atomic.  If `compute_shared_secret` fails, the
object's state — in particular the stored `shared_key` — is exactly what
it was before the call; and a failed `decrypt` yields an error and no
plaintext at all. -/
theorem c9_atomicity {G : Type} [AddCommMonoid G]
    (secretBytes : G → List ℕ) (bytesToPoint : List ℕ → Option G)
    (st : ECDHState) (pb : List ℕ) :
    (∀ e, (computeSharedSecret secretBytes bytesToPoint st pb).1 = .error e →
      (computeSharedSecret secretBytes bytesToPoint st pb).2 = st) ∧
    (∀ (D : List ℕ → List ℕ → List ℕ) (key ct : List ℕ) (e : DecryptError),
      AESCipher.decrypt D key ct = .error e →
      ∀ p, AESCipher.decrypt D key ct ≠ .ok p) := by
  constructor
  · intro e h
    unfold computeSharedSecret at h ⊢
    cases hp : parsePublicKey bytesToPoint pb with
    | none => rfl
    | some peer =>
      rw [hp] at h
      exact absurd h (by simp)
  · intro D key ct e he p hp
    rw [he] at hp
    exact absurd hp (by simp)

theorem c9_atomicity_witness :
    (computeSharedSecret demoSecretBytes demoBytesToPoint
      (ECDHKeyExchange.init 7) [1, 2, 3]).1 = .error .decodeError ∧
    (computeSharedSecret demoSecretBytes demoBytesToPoint
      (ECDHKeyExchange.init 7) [1, 2, 3]).2 = ECDHKeyExchange.init 7 ∧
    AESCipher.decrypt idCipher [0] [1, 2] = .error .ivSize ∧
    AESCipher.decrypt idCipher [0] [1, 2] ≠ .ok [65] :=
  ⟨by decide, (c9_atomicity demoSecretBytes demoBytesToPoint
      (ECDHKeyExchange.init 7) [1, 2, 3]).1 .decodeError (by decide),
   by decide,
   (c9_atomicity demoSecretBytes demoBytesToPoint
      (ECDHKeyExchange.init 7) [1, 2, 3]).2 idCipher [0] [1, 2] .ivSize
      (by decide) [65]⟩

/-- C2: with any two independently generated keypairs, each side
serialising its public key with `get_public_bytes` and the peer parsing
it inside `compute_shared_secret`, the public-key encoding round-trips
through parsing and both sides obtain the identical derived symmetric
key `SHA-256(secretBytes(a • b • g))`. -/
theorem c2_agreement (G : Type) [AddCommMonoid G] (g : G)
    (pointBytes : G → List ℕ) (bytesToPoint : List ℕ → Option G)
    (secretBytes : G → List ℕ)
    (hcodec : ValidPointCodec pointBytes bytesToPoint) (a b : ℕ) :
    parsePublicKey bytesToPoint
      (getPublicBytes g pointBytes (ECDHKeyExchange.init a))
      = some (ECDHKeyExchange.publicKey g (ECDHKeyExchange.init a)) ∧
    (computeSharedSecret secretBytes bytesToPoint (ECDHKeyExchange.init a)
        (getPublicBytes g pointBytes (ECDHKeyExchange.init b))).1
      = .ok (sha256 (secretBytes (a • b • g))) ∧
    (computeSharedSecret secretBytes bytesToPoint (ECDHKeyExchange.init b)
        (getPublicBytes g pointBytes (ECDHKeyExchange.init a))).1
      = .ok (sha256 (secretBytes (a • b • g))) := by
  refine ⟨?_, ?_, ?_⟩
  · exact parsePublicKey_encodePublicKey pointBytes bytesToPoint hcodec _
  · unfold computeSharedSecret getPublicBytes
    rw [parsePublicKey_encodePublicKey pointBytes bytesToPoint hcodec _]
    rfl
  · unfold computeSharedSecret getPublicBytes
    rw [parsePublicKey_encodePublicKey pointBytes bytesToPoint hcodec _]
    dsimp only
    rw [show (ECDHKeyExchange.init b).privateScalar •
        ECDHKeyExchange.publicKey g (ECDHKeyExchange.init a)
        = a • b • g from dh_smul_comm g b a]

theorem c2_agreement_witness :
    ValidPointCodec demoPointBytes demoBytesToPoint ∧
    (parsePublicKey demoBytesToPoint
      (getPublicBytes (1 : ZMod 101) demoPointBytes (ECDHKeyExchange.init 3))
      = some (ECDHKeyExchange.publicKey (1 : ZMod 101) (ECDHKeyExchange.init 3)) ∧
    (computeSharedSecret demoSecretBytes demoBytesToPoint
        (ECDHKeyExchange.init 3)
        (getPublicBytes (1 : ZMod 101) demoPointBytes (ECDHKeyExchange.init 5))).1
      = .ok (sha256 (demoSecretBytes (3 • 5 • (1 : ZMod 101)))) ∧
    (computeSharedSecret demoSecretBytes demoBytesToPoint
        (ECDHKeyExchange.init 5)
        (getPublicBytes (1 : ZMod 101) demoPointBytes (ECDHKeyExchange.init 3))).1
      = .ok (sha256 (demoSecretBytes (3 • 5 • (1 : ZMod 101))))) :=
  ⟨demoCodec_valid,
   c2_agreement (ZMod 101) 1 demoPointBytes demoBytesToPoint demoSecretBytes
     demoCodec_valid 3 5⟩

/-- C4: `compute_shared_secret` fails with `DecodeError` exactly on the
inputs that are not the well-formed encoding of a valid curve point, and
succeeds (with the derived key, never a silently wrong result) on every
well-formed encoding of a valid curve point. -/
theorem c4_decode_iff (G : Type) [AddCommMonoid G]
    (pointBytes : G → List ℕ) (bytesToPoint : List ℕ → Option G)
    (secretBytes : G → List ℕ)
    (hcodec : ValidPointCodec pointBytes bytesToPoint)
    (st : ECDHState) (pb : List ℕ) :
    ((computeSharedSecret secretBytes bytesToPoint st pb).1
        = .error .decodeError ↔
      ¬ ∃ P : G, pb = encodePublicKey pointBytes P) ∧
    (∀ P : G, pb = encodePublicKey pointBytes P →
      (computeSharedSecret secretBytes bytesToPoint st pb).1
        = .ok (sha256 (secretBytes (st.privateScalar • P)))) := by
  constructor
  · unfold computeSharedSecret
    cases hp : parsePublicKey bytesToPoint pb with
    | none =>
      dsimp only
      constructor
      · rintro - ⟨P, hP⟩
        rw [hP, parsePublicKey_encodePublicKey pointBytes bytesToPoint
          hcodec P] at hp
        exact absurd hp (by simp)
      · intro _
        rfl
    | some peer =>
      dsimp only
      constructor
      · intro h
        exact absurd h (by simp)
      · intro h
        exact absurd ⟨peer,
          parsePublicKey_canonical pointBytes bytesToPoint hcodec pb peer hp⟩ h
  · intro P hP
    unfold computeSharedSecret
    rw [hP, parsePublicKey_encodePublicKey pointBytes bytesToPoint hcodec P]

theorem c4_decode_iff_witness :
    ValidPointCodec demoPointBytes demoBytesToPoint ∧
    (computeSharedSecret demoSecretBytes demoBytesToPoint
      (ECDHKeyExchange.init 7) [1, 2, 3]).1 = .error .decodeError ∧
    ¬ (∃ P : ZMod 101, [1, 2, 3] = encodePublicKey demoPointBytes P) ∧
    (computeSharedSecret demoSecretBytes demoBytesToPoint
      (ECDHKeyExchange.init 7) (encodePublicKey demoPointBytes (3 : ZMod 101))).1
      = .ok (sha256 (demoSecretBytes ((ECDHKeyExchange.init 7).privateScalar
          • (3 : ZMod 101)))) :=
  ⟨demoCodec_valid, by decide,
   (c4_decode_iff (ZMod 101) demoPointBytes demoBytesToPoint demoSecretBytes
     demoCodec_valid (ECDHKeyExchange.init 7) [1, 2, 3]).1.mp (by decide),
   (c4_decode_iff (ZMod 101) demoPointBytes demoBytesToPoint demoSecretBytes
     demoCodec_valid (ECDHKeyExchange.init 7)
     (encodePublicKey demoPointBytes (3 : ZMod 101))).2 (3 : ZMod 101) rfl⟩

/-- C7: on success, the symmetric key stored and returned by
`compute_shared_secret` is exactly the SHA-256 digest of the shared
secret, is always 32 bytes long, and is a deterministic function of the
shared secret alone: any two computations whose shared secrets serialise
equal derive the identical key. -/
theorem c7_key_derivation (G : Type) [AddCommMonoid G]
    (secretBytes : G → List ℕ) (bytesToPoint : List ℕ → Option G)
    (st : ECDHState) (pb : List ℕ) (P : G)
    (hp : parsePublicKey bytesToPoint pb = some P) :
    (computeSharedSecret secretBytes bytesToPoint st pb).1
      = .ok (sha256 (secretBytes (st.privateScalar • P))) ∧
    (computeSharedSecret secretBytes bytesToPoint st pb).2.sharedKey
      = some (sha256 (secretBytes (st.privateScalar • P))) ∧
    (sha256 (secretBytes (st.privateScalar • P))).length = 32 ∧
    (∀ (st' : ECDHState) (pb' : List ℕ) (P' : G),
      parsePublicKey bytesToPoint pb' = some P' →
      secretBytes (st.privateScalar • P) = secretBytes (st'.privateScalar • P') →
      (computeSharedSecret secretBytes bytesToPoint st pb).1
        = (computeSharedSecret secretBytes bytesToPoint st' pb').1) := by
  refine ⟨?_, ?_, sha256_length _, ?_⟩
  · unfold computeSharedSecret
    rw [hp]
  · unfold computeSharedSecret
    rw [hp]
  · intro st' pb' P' hp' hsec
    unfold computeSharedSecret
    rw [hp, hp']
    dsimp only
    rw [hsec]

theorem c7_key_derivation_witness :
    parsePublicKey demoBytesToPoint
      (encodePublicKey demoPointBytes (5 : ZMod 101)) = some (5 : ZMod 101) ∧
    (computeSharedSecret demoSecretBytes demoBytesToPoint
      (ECDHKeyExchange.init 7)
      (encodePublicKey demoPointBytes (5 : ZMod 101))).1
      = .ok (sha256 (demoSecretBytes ((ECDHKeyExchange.init 7).privateScalar
          • (5 : ZMod 101)))) ∧
    (sha256 (demoSecretBytes ((ECDHKeyExchange.init 7).privateScalar
      • (5 : ZMod 101)))).length = 32 := by
  have h := c7_key_derivation (ZMod 101) demoSecretBytes demoBytesToPoint
    (ECDHKeyExchange.init 7) (encodePublicKey demoPointBytes (5 : ZMod 101))
    (5 : ZMod 101) (by decide)
  exact ⟨by decide, h.1, h.2.2.1⟩

/- ## C3: keypair lifecycle across sessions. -/

theorem computeSharedSecret_scalar {G : Type} [AddCommMonoid G]
    (secretBytes : G → List ℕ) (bytesToPoint : List ℕ → Option G)
    (st : ECDHState) (pb : List ℕ) :
    (computeSharedSecret secretBytes bytesToPoint st pb).2.privateScalar
      = st.privateScalar := by
  unfold computeSharedSecret
  cases hp : parsePublicKey bytesToPoint pb <;> rfl

theorem handleConn_ok {G : Type} [AddCommMonoid G]
    (E D : List ℕ → List ℕ → List ℕ) (g : G)
    (pointBytes : G → List ℕ) (bytesToPoint : List ℕ → Option G)
    (secretBytes : G → List ℕ) (st : ECDHState) (ci : ConnInput)
    (tr : ConnTrace) (st1 : ECDHState)
    (h : handleConn E D g pointBytes bytesToPoint secretBytes st ci
      = .ok (tr, st1)) :
    tr.scalarUsed = st.privateScalar ∧ st1.privateScalar = st.privateScalar := by
  unfold handleConn at h
  cases hcs : computeSharedSecret secretBytes bytesToPoint st ci.peerPub with
  | mk fst snd =>
    rw [hcs] at h
    cases fst with
    | error e => exact absurd h (by simp)
    | ok key =>
      dsimp only at h
      cases hd : AESCipher.decrypt D key ci.encMsg with
      | error e =>
        rw [hd] at h
        exact absurd h (by simp)
      | ok msg =>
        rw [hd] at h
        simp only [Except.ok.injEq, Prod.mk.injEq] at h
        obtain ⟨htr, hst⟩ := h
        constructor
        · rw [← htr]
        · rw [← hst]
          have := computeSharedSecret_scalar secretBytes bytesToPoint st
            ci.peerPub
          rw [hcs] at this
          exact this

theorem runServerConns_scalar {G : Type} [AddCommMonoid G]
    (E D : List ℕ → List ℕ → List ℕ) (g : G)
    (pointBytes : G → List ℕ) (bytesToPoint : List ℕ → Option G)
    (secretBytes : G → List ℕ) :
    ∀ (conns : List ConnInput) (st : ECDHState)
      (r : Except ConnError ConnTrace),
      r ∈ runServerConns E D g pointBytes bytesToPoint secretBytes st conns →
      ∀ tr, r = .ok tr → tr.scalarUsed = st.privateScalar := by
  intro conns
  induction conns with
  | nil =>
    intro st r hr
    simp [runServerConns] at hr
  | cons ci rest ih =>
    intro st r hr tr hok
    unfold runServerConns at hr
    cases hh : handleConn E D g pointBytes bytesToPoint secretBytes st ci with
    | error e =>
      rw [hh] at hr
      simp only [List.mem_singleton] at hr
      rw [hr] at hok
      exact absurd hok (by simp)
    | ok pr =>
      obtain ⟨tr0, st1⟩ := pr
      rw [hh] at hr
      simp only [List.mem_cons] at hr
      obtain ⟨hsc, hst1⟩ := handleConn_ok E D g pointBytes bytesToPoint
        secretBytes st ci tr0 st1 hh
      rcases hr with hr | hr
      · rw [hr] at hok
        simp only [Except.ok.injEq] at hok
        rw [← hok]
        exact hsc
      · rw [← hst1]
        exact ih st1 r hr tr hok

/-- C3 (amended): the client generates a fresh keypair per invocation and
uses its own scalar; but the server generates its keypair once, before
the accept loop, and every connection it serves computes its shared
secret from that same private scalar — the scalar is not fresh per
session on the server side. -/
theorem c3_keypair_lifecycle (G : Type) [AddCommMonoid G]
    (E D : List ℕ → List ℕ → List ℕ) (g : G)
    (pointBytes : G → List ℕ) (bytesToPoint : List ℕ → Option G)
    (secretBytes : G → List ℕ) (scalar : ℕ) (conns : List ConnInput) :
    (∀ r ∈ runServer E D g pointBytes bytesToPoint secretBytes scalar conns,
      ∀ tr, r = .ok tr → tr.scalarUsed = scalar) ∧
    (∀ (s1 : ℕ) (serverPub msgIv respCt : List ℕ) (tr : ClientTrace),
      runClient E D g pointBytes bytesToPoint secretBytes s1 serverPub msgIv
        respCt = .ok tr → tr.scalarUsed = s1) := by
  constructor
  · intro r hr tr hok
    exact runServerConns_scalar E D g pointBytes bytesToPoint secretBytes
      conns (ECDHKeyExchange.init scalar) r hr tr hok
  · intro s1 serverPub msgIv respCt tr h
    unfold runClient at h
    dsimp only at h
    cases hcs : computeSharedSecret secretBytes bytesToPoint
        (ECDHKeyExchange.init s1) serverPub with
    | mk fst snd =>
      rw [hcs] at h
      cases fst with
      | error e => exact absurd h (by simp)
      | ok key =>
        dsimp only at h
        cases hd : AESCipher.decrypt D key respCt with
        | error e =>
          rw [hd] at h
          exact absurd h (by simp)
        | ok resp =>
          rw [hd] at h
          simp only [Except.ok.injEq] at h
          rw [← h]
          rfl

set_option maxRecDepth 200000 in
/-- C3 counterexample to the claim as stated: a server run that serves
two distinct peer connections to completion and computes both shared
secrets from the same private scalar 7 — the scalars used are not
pairwise distinct, because `run_server` creates its `ECDHKeyExchange`
once, before the accept loop. -/
theorem c3_counterexample :
    demoServerRun.map extractScalarUsed = [some 7, some 7] ∧
    ¬ List.Pairwise (fun a b => a ≠ b)
        (demoServerRun.map extractScalarUsed) := by
  constructor
  · decide
  · intro h
    have h2 : demoServerRun.map extractScalarUsed = [some 7, some 7] := by
      decide
    rw [h2] at h
    simp at h

set_option maxRecDepth 200000 in
theorem c3_keypair_lifecycle_witness :
    (Except.ok demoTrace ∈ demoServerRun) ∧ demoTrace.scalarUsed = 7 ∧
    runClient idCipher idCipher (1 : ZMod 101) demoPointBytes
      demoBytesToPoint demoSecretBytes 9
      (encodePublicKey demoPointBytes (3 : ZMod 101))
      (List.replicate 16 0)
      (List.replicate 16 0 ++ (65 :: List.replicate 15 15))
      = .ok demoClientTrace ∧
    demoClientTrace.scalarUsed = 9 := by
  refine ⟨?mem, ?srv, ?cli, ?clisc⟩
  case mem => decide
  case srv =>
    exact (c3_keypair_lifecycle (ZMod 101) idCipher idCipher 1 demoPointBytes
      demoBytesToPoint demoSecretBytes 7 [demoConn 3, demoConn 5]).1
      (Except.ok demoTrace) (by decide) demoTrace rfl
  case cli => decide
  case clisc =>
    exact (c3_keypair_lifecycle (ZMod 101) idCipher idCipher 1 demoPointBytes
      demoBytesToPoint demoSecretBytes 7 []).2 9
      (encodePublicKey demoPointBytes (3 : ZMod 101))
      (List.replicate 16 0)
      (List.replicate 16 0 ++ (65 :: List.replicate 15 15))
      demoClientTrace (by decide)
